import Mathlib

/-!
Shallow embedding of `packages/middleware-stack/src/MiddlewareStack.ts`.

The middleware type is kept abstract as a type parameter `M`; the engine never
inspects middleware, only stores and (at composition time) applies them.
Mutable JS state (`absoluteEntries`, `relativeEntries`, `entriesNameSet`,
`cachedMiddlewareList`, `identifyOnResolve`) becomes an explicit `Stack` value
threaded through each operation.  A JS `throw` becomes returning
`some err` next to the (possibly mutated, exactly as in the source) state.
-/

namespace MwStack

/-- `Step` from `@smithy/types`: the five pipeline phases. -/
inductive Step where
  | initialize_
  | serialize
  | build
  | finalizeRequest
  | deserialize
deriving DecidableEq, Repr

/-- `Priority` from `@smithy/types`. -/
inductive Priority where
  | high
  | normal
  | low
deriving DecidableEq, Repr

/-- Relation of a relative entry to its anchor. -/
inductive Relation where
  | before
  | after
deriving DecidableEq, Repr

/-- `stepWeights` table (MiddlewareStack.ts, bottom of file). -/
def stepWeights : Step → Nat
  | .initialize_ => 5
  | .serialize => 4
  | .build => 3
  | .finalizeRequest => 2
  | .deserialize => 1

/-- `priorityWeights` table. -/
def priorityWeights : Priority → Nat
  | .high => 3
  | .normal => 2
  | .low => 1

/-- `AbsoluteMiddlewareEntry`: what `add` stores.  The spread
`{step, priority, middleware, ...options}` keeps every option field on the
entry, including the `override` flag. -/
structure AbsEntry (M : Type) where
  middleware : M
  name : Option String := none
  aliases : List String := []
  tags : List String := []
  step : Step := .initialize_
  priority : Priority := .normal
  override : Bool := false
deriving DecidableEq, Repr

/-- `RelativeMiddlewareEntry`: what `addRelativeTo` stores. -/
structure RelEntry (M : Type) where
  middleware : M
  name : Option String := none
  aliases : List String := []
  tags : List String := []
  toMiddleware : String
  relation : Relation
  override : Bool := false
deriving DecidableEq, Repr

/-- A resolved-chain element: either kind of entry (the normalized entries of
the source are copies of these, with transient before/after lists that we
keep outside the entry). -/
inductive MwEntry (M : Type) where
  | abs (e : AbsEntry M)
  | rel (e : RelEntry M)
deriving DecidableEq, Repr

def MwEntry.middleware : MwEntry M → M
  | .abs e => e.middleware
  | .rel e => e.middleware

def MwEntry.isAbs : MwEntry M → Bool
  | .abs _ => true
  | .rel _ => false

/-- `getAllAliases(name, aliases)`: primary name first (JS truthiness makes
the empty string count as absent), then the alias list verbatim. -/
def getAllAliases (name : Option String) (aliases : List String) : List String :=
  (match name with
   | some n => if n = "" then [] else [n]
   | none => []) ++ aliases

/-- `getMiddlewareNameWithAliases`: display name used in error messages. -/
def getMiddlewareNameWithAliases (name : Option String) (aliases : List String) : String :=
  (match name with
   | some n => if n = "" then "anonymous" else n
   | none => "anonymous") ++
  (if aliases = [] then "" else " (a.k.a. " ++ String.intercalate "," aliases ++ ")")

/-- The data interpolated into the three `throw new Error(...)` sites.
Structured here; the source renders each into one message string. -/
inductive StackError where
  | duplicateName (nameWithAliases : String)
  | overrideMismatchAbs (oldName : String) (oldPriority : Priority) (oldStep : Step)
      (newName : String) (newPriority : Priority) (newStep : Step)
  | overrideMismatchRel (oldName : String) (oldRelation : Relation) (oldTo : String)
      (newName : String) (newRelation : Relation) (newTo : String)
  | anchorNotFound (anchor : String) (orphanNameWithAliases : String) (relation : Relation)
deriving DecidableEq, Repr

def StackError.isOverrideMismatch : StackError → Bool
  | .overrideMismatchAbs .. => true
  | .overrideMismatchRel .. => true
  | _ => false

def StackError.isAnchorNotFound : StackError → Bool
  | .anchorNotFound .. => true
  | _ => false

/-- `entriesNameSet`: a JS `Set<string>` used only through `has`, `add` and
`delete`; modelled as a duplicate-free insertion-ordered list. -/
abbrev NameSet := List String

def NameSet.hasName (s : NameSet) (a : String) : Bool := a ∈ s

def NameSet.addName (s : NameSet) (a : String) : NameSet :=
  if a ∈ s then s else s ++ [a]

def NameSet.addAll (s : NameSet) (as : List String) : NameSet :=
  as.foldl NameSet.addName s

def NameSet.deleteName (s : NameSet) (a : String) : NameSet :=
  s.filter (fun b => b ≠ a)

def NameSet.deleteAll (s : NameSet) (as : List String) : NameSet :=
  as.foldl NameSet.deleteName s

/-- The closure state of `constructStack`. -/
structure Stack (M : Type) where
  absoluteEntries : List (AbsEntry M) := []
  relativeEntries : List (RelEntry M) := []
  entriesNameSet : NameSet := []
  cachedMiddlewareList : Option (List (MwEntry M)) := none
  identifyOnResolve : Bool := false
deriving DecidableEq, Repr

/-- Options of `add` (`HandlerOptions & AbsoluteLocation`).  A missing
`step`/`priority` key leaves the defaults from the object literal. -/
structure AddOptions where
  name : Option String := none
  aliases : List String := []
  tags : List String := []
  step : Option Step := none
  priority : Option Priority := none
  override : Bool := false
deriving DecidableEq, Repr

/-- Options of `addRelativeTo` (`HandlerOptions & RelativeLocation`). -/
structure RelOptions where
  name : Option String := none
  aliases : List String := []
  tags : List String := []
  toMiddleware : String
  relation : Relation
  override : Bool := false
deriving DecidableEq, Repr

/-- The entry built at the top of `add`:
`{step: "initialize", priority: "normal", middleware, ...options}`. -/
def AddOptions.toEntry (o : AddOptions) (middleware : M) : AbsEntry M :=
  { middleware
    name := o.name
    aliases := o.aliases
    tags := o.tags
    step := o.step.getD .initialize_
    priority := o.priority.getD .normal
    override := o.override }

/-- The entry built at the top of `addRelativeTo`: `{middleware, ...options}`. -/
def RelOptions.toEntry (o : RelOptions) (middleware : M) : RelEntry M :=
  { middleware
    name := o.name
    aliases := o.aliases
    tags := o.tags
    toMiddleware := o.toMiddleware
    relation := o.relation
    override := o.override }

/-- Outcome of `findIndex` + match check + `splice` for one alias. -/
inductive HitResult (α : Type) where
  | noHit
  | removed (l : α)
  | mismatch (err : StackError)
deriving DecidableEq, Repr

/-- `findIndex` over the absolute entries for one alias, fused with the
match check and the `splice`: `noHit` when `findIndex` returns -1,
`removed` with the list minus the first hit when it matches the new entry,
`mismatch` with the thrown error (and the list untouched) otherwise. -/
def scanHitAbs (entry : AbsEntry M) (a : String) :
    List (AbsEntry M) → HitResult (List (AbsEntry M))
  | [] => .noHit
  | e :: rest =>
    if e.name = some a ∨ e.aliases.any (fun x => x = a) then
      if e.step ≠ entry.step ∨ entry.priority ≠ e.priority then
        .mismatch (.overrideMismatchAbs
          (getMiddlewareNameWithAliases e.name e.aliases) e.priority e.step
          (getMiddlewareNameWithAliases entry.name entry.aliases)
          entry.priority entry.step)
      else .removed rest
    else
      match scanHitAbs entry a rest with
      | .noHit => .noHit
      | .removed l => .removed (e :: l)
      | .mismatch err => .mismatch err

/-- Same first-hit scan over the relative entries, comparing anchor name and
relation instead of step and priority. -/
def scanHitRel (entry : RelEntry M) (a : String) :
    List (RelEntry M) → HitResult (List (RelEntry M))
  | [] => .noHit
  | e :: rest =>
    if e.name = some a ∨ e.aliases.any (fun x => x = a) then
      if e.toMiddleware ≠ entry.toMiddleware ∨ e.relation ≠ entry.relation then
        .mismatch (.overrideMismatchRel
          (getMiddlewareNameWithAliases e.name e.aliases) e.relation e.toMiddleware
          (getMiddlewareNameWithAliases entry.name entry.aliases)
          entry.relation entry.toMiddleware)
      else .removed rest
    else
      match scanHitRel entry a rest with
      | .noHit => .noHit
      | .removed l => .removed (e :: l)
      | .mismatch err => .mismatch err

/-- The `for (const alias of aliases)` override loop of `add`.  A mismatch
throws with the list as already shortened by the earlier aliases, since the
source `throw` leaves the earlier `splice`s in place. -/
def overrideScanAbs (entry : AbsEntry M) :
    List String → List (AbsEntry M) → List (AbsEntry M) × Option StackError
  | [], abs => (abs, none)
  | a :: rest, abs =>
    match scanHitAbs entry a abs with
    | .noHit => overrideScanAbs entry rest abs
    | .removed abs' => overrideScanAbs entry rest abs'
    | .mismatch err => (abs, some err)

/-- The override loop of `addRelativeTo`. -/
def overrideScanRel (entry : RelEntry M) :
    List String → List (RelEntry M) → List (RelEntry M) × Option StackError
  | [], rel => (rel, none)
  | a :: rest, rel =>
    match scanHitRel entry a rel with
    | .noHit => overrideScanRel entry rest rel
    | .removed rel' => overrideScanRel entry rest rel'
    | .mismatch err => (rel, some err)

/-- `stack.add(middleware, options)`.  Returns the state as left by the call
(mutations before a `throw` included) and the error, if one was thrown. -/
def Stack.add (s : Stack M) (middleware : M) (options : AddOptions) :
    Stack M × Option StackError :=
  let entry := options.toEntry middleware
  let aliases := getAllAliases options.name options.aliases
  if aliases = [] then
    ({ s with absoluteEntries := s.absoluteEntries ++ [entry], cachedMiddlewareList := none },
     none)
  else
    if aliases.any s.entriesNameSet.hasName then
      if !options.override then
        (s, some (.duplicateName (getMiddlewareNameWithAliases options.name options.aliases)))
      else
        match overrideScanAbs entry aliases s.absoluteEntries with
        | (abs, some err) => ({ s with absoluteEntries := abs }, some err)
        | (abs, none) =>
          ({ s with
              absoluteEntries := abs ++ [entry]
              entriesNameSet := s.entriesNameSet.addAll aliases
              cachedMiddlewareList := none }, none)
    else
      ({ s with
          absoluteEntries := s.absoluteEntries ++ [entry]
          entriesNameSet := s.entriesNameSet.addAll aliases
          cachedMiddlewareList := none }, none)

/-- `stack.addRelativeTo(middleware, options)`. -/
def Stack.addRelativeTo (s : Stack M) (middleware : M) (options : RelOptions) :
    Stack M × Option StackError :=
  let entry := options.toEntry middleware
  let aliases := getAllAliases options.name options.aliases
  if aliases = [] then
    ({ s with relativeEntries := s.relativeEntries ++ [entry], cachedMiddlewareList := none },
     none)
  else
    if aliases.any s.entriesNameSet.hasName then
      if !options.override then
        (s, some (.duplicateName (getMiddlewareNameWithAliases options.name options.aliases)))
      else
        match overrideScanRel entry aliases s.relativeEntries with
        | (rel, some err) => ({ s with relativeEntries := rel }, some err)
        | (rel, none) =>
          ({ s with
              relativeEntries := rel ++ [entry]
              entriesNameSet := s.entriesNameSet.addAll aliases
              cachedMiddlewareList := none }, none)
    else
      ({ s with
          relativeEntries := s.relativeEntries ++ [entry]
          entriesNameSet := s.entriesNameSet.addAll aliases
          cachedMiddlewareList := none }, none)

/-- `removeByName`: filter both lists, deleting every alias of each removed
entry from the name set; invalidate the cache iff something was removed. -/
def Stack.removeByName (s : Stack M) (toRemove : String) : Stack M × Bool :=
  let hit := fun (name : Option String) (aliases : List String) =>
    (getAllAliases name aliases).any (fun x => x = toRemove)
  let removedAbs := s.absoluteEntries.filter (fun e => hit e.name e.aliases)
  let removedRel := s.relativeEntries.filter (fun e => hit e.name e.aliases)
  let isRemoved := !removedAbs.isEmpty || !removedRel.isEmpty
  let set1 := removedAbs.foldl
    (fun st e => st.deleteAll (getAllAliases e.name e.aliases)) s.entriesNameSet
  let set2 := removedRel.foldl
    (fun st e => st.deleteAll (getAllAliases e.name e.aliases)) set1
  (if isRemoved then
    { s with
        absoluteEntries := s.absoluteEntries.filter (fun e => !hit e.name e.aliases)
        relativeEntries := s.relativeEntries.filter (fun e => !hit e.name e.aliases)
        entriesNameSet := set2
        cachedMiddlewareList := none }
   else s, isRemoved)

/-- `removeByReference`: same, keyed on middleware identity. -/
def Stack.removeByReference [DecidableEq M] (s : Stack M) (toRemove : M) : Stack M × Bool :=
  let removedAbs := s.absoluteEntries.filter (fun e => e.middleware = toRemove)
  let removedRel := s.relativeEntries.filter (fun e => e.middleware = toRemove)
  let isRemoved := !removedAbs.isEmpty || !removedRel.isEmpty
  let set1 := removedAbs.foldl
    (fun st e => st.deleteAll (getAllAliases e.name e.aliases)) s.entriesNameSet
  let set2 := removedRel.foldl
    (fun st e => st.deleteAll (getAllAliases e.name e.aliases)) set1
  (if isRemoved then
    { s with
        absoluteEntries := s.absoluteEntries.filter (fun e => ¬ e.middleware = toRemove)
        relativeEntries := s.relativeEntries.filter (fun e => ¬ e.middleware = toRemove)
        entriesNameSet := set2
        cachedMiddlewareList := none }
   else s, isRemoved)

/-- `removeByTag`: same, keyed on tag membership. -/
def Stack.removeByTag (s : Stack M) (toRemove : String) : Stack M × Bool :=
  let hit := fun (tags : List String) => tags.any (fun x => x = toRemove)
  let removedAbs := s.absoluteEntries.filter (fun e => hit e.tags)
  let removedRel := s.relativeEntries.filter (fun e => hit e.tags)
  let isRemoved := !removedAbs.isEmpty || !removedRel.isEmpty
  let set1 := removedAbs.foldl
    (fun st e => st.deleteAll (getAllAliases e.name e.aliases)) s.entriesNameSet
  let set2 := removedRel.foldl
    (fun st e => st.deleteAll (getAllAliases e.name e.aliases)) set1
  (if isRemoved then
    { s with
        absoluteEntries := s.absoluteEntries.filter (fun e => !hit e.tags)
        relativeEntries := s.relativeEntries.filter (fun e => !hit e.tags)
        entriesNameSet := set2
        cachedMiddlewareList := none }
   else s, isRemoved)

/-- A normalized entry during resolution, identified by kind and position in
its registry list (the source identifies them by object identity; positions
are the value-level stand-in, since two entries may be equal as values). -/
abbrev Node (M : Type) := Sum (Nat × AbsEntry M) (Nat × RelEntry M)

/-- The identity part of a node. -/
def Node.key : Node M → Sum Nat Nat
  | .inl p => .inl p.1
  | .inr p => .inr p.1

/-- The chain element a node contributes. -/
def Node.toMw : Node M → MwEntry M
  | .inl p => .abs p.2
  | .inr p => .rel p.2

/-- All writes into `normalizedEntriesNameMap`, in program order: absolute
entries first, then relative entries, each alias in `getAllAliases` order. -/
def aliasWrites (absL : List (AbsEntry M)) (relL : List (RelEntry M)) :
    List (String × Node M) :=
  (absL.enum.flatMap fun p =>
    (getAllAliases p.2.name p.2.aliases).map (fun a => (a, Sum.inl p))) ++
  (relL.enum.flatMap fun p =>
    (getAllAliases p.2.name p.2.aliases).map (fun a => (a, Sum.inr p)))

/-- `normalizedEntriesNameMap[a]`: the last write wins. -/
def nameMap (absL : List (AbsEntry M)) (relL : List (RelEntry M)) (a : String) :
    Option (Node M) :=
  ((aliasWrites absL relL).reverse.find? (fun w => w.1 = a)).map (·.2)

/-- One attachment record: (relative entry with its index, anchor node,
relation), standing for the push onto the anchor's before/after list. -/
abbrev Att (M : Type) := (Nat × RelEntry M) × Node M × Relation

/-- The attachment loop in inspection mode: a relative entry with a falsy
anchor name, or whose anchor is absent from the map, is silently skipped. -/
def attachFromDbg (nm : String → Option (Node M)) (k : Nat) :
    List (RelEntry M) → List (Att M)
  | [] => []
  | e :: rest =>
    if e.toMiddleware = "" then attachFromDbg nm (k + 1) rest
    else
      match nm e.toMiddleware with
      | none => attachFromDbg nm (k + 1) rest
      | some n => ((k, e), n, e.relation) :: attachFromDbg nm (k + 1) rest

/-- The attachment loop in execution mode: a missing anchor throws at the
first offending entry (a falsy anchor name is still silently skipped). -/
def attachFromExc (nm : String → Option (Node M)) (k : Nat) :
    List (RelEntry M) → Except StackError (List (Att M))
  | [] => .ok []
  | e :: rest =>
    if e.toMiddleware = "" then attachFromExc nm (k + 1) rest
    else
      match nm e.toMiddleware with
      | none =>
        .error (.anchorNotFound e.toMiddleware
          (getMiddlewareNameWithAliases e.name e.aliases) e.relation)
      | some n => (attachFromExc nm (k + 1) rest).map (((k, e), n, e.relation) :: ·)

/-- The before/after list of a node, read off the attachment records in
registration order. -/
def childrenOf (att : List (Att M)) (n : Sum Nat Nat) (r : Relation) :
    List (Nat × RelEntry M) :=
  (att.filter (fun t => t.2.1.key = n ∧ t.2.2 = r)).map (·.1)

/-- The `entry.before.length === 0 && entry.after.length === 0` test. -/
def isLeaf (att : List (Att M)) (j : Nat) : Bool :=
  (childrenOf att (.inr j) .before).isEmpty && (childrenOf att (.inr j) .after).isEmpty

/-- The forEach-push accumulation of `expandRelativeMiddlewareList` over one
children list: apply `f` (push a leaf, or recursively expand) to each child
and concatenate, propagating fuel exhaustion. -/
def seqExpand (f : (Nat × RelEntry M) → Option (List (MwEntry M))) :
    List (Nat × RelEntry M) → Option (List (MwEntry M))
  | [] => some []
  | c :: cs =>
    match f c, seqExpand f cs with
    | some l, some ls => some (l ++ ls)
    | _, _ => none

/-- `expandRelativeMiddlewareList`: before children in registration order,
the node itself, then after children in reverse registration order, each
non-leaf child recursively expanded.  The source recursion has no guard;
fuel makes it total here, and the rootedness theorems below show the
default fuel never runs out in the roles the program uses. -/
def expandFuel (att : List (Att M)) : Nat → Node M → Option (List (MwEntry M))
  | 0, _ => none
  | fuel + 1, n =>
    match seqExpand (fun c => if isLeaf att c.1 then some [MwEntry.rel c.2]
            else expandFuel att fuel (.inr c)) (childrenOf att n.key .before),
          seqExpand (fun c => if isLeaf att c.1 then some [MwEntry.rel c.2]
            else expandFuel att fuel (.inr c)) (childrenOf att n.key .after).reverse with
    | some bs, some as_ => some (bs ++ [n.toMw] ++ as_)
    | _, _ => none

/-- The comparator of `sort`: `a` is placed before `b` when the step weight
of `a` is larger, or equal with a priority weight at least as large (the
source comparator additionally defaults a missing priority to normal, which
the entry construction in `add` has already done here). -/
def sortsBefore (a b : AbsEntry M) : Prop :=
  stepWeights b.step < stepWeights a.step ∨
    (stepWeights b.step = stepWeights a.step ∧
      priorityWeights b.priority ≤ priorityWeights a.priority)

instance (a b : AbsEntry M) : Decidable (sortsBefore a b) := by
  unfold sortsBefore; infer_instance

/-- Stable insertion for the descending sort: an element goes before the
first position it need not follow, so earlier-registered entries stay ahead
of equal-keyed later ones — the stability JS `Array.prototype.sort`
guarantees. -/
def insertSorted (x : Nat × AbsEntry M) :
    List (Nat × AbsEntry M) → List (Nat × AbsEntry M)
  | [] => [x]
  | y :: ys => if sortsBefore x.2 y.2 then x :: y :: ys else y :: insertSorted x ys

/-- The stable sort of the (indexed) absolute entries. -/
def sortIndexed (l : List (Nat × AbsEntry M)) : List (Nat × AbsEntry M) :=
  l.foldr insertSorted []

/-- Fuel that `expandFuel_isSome_of_rooted` proves sufficient. -/
def expansionFuel (relL : List (RelEntry M)) : Nat := relL.length + 1

/-- `sort(normalizedAbsoluteEntries).flatMap(expandRelativeMiddlewareList)`.
The `getD []` branch is dead code: see `expandFuel_isSome_of_rooted`. -/
def mainChainFrom (att : List (Att M)) (absL : List (AbsEntry M)) (fuel : Nat) :
    List (MwEntry M) :=
  (sortIndexed absL.enum).flatMap (fun p => (expandFuel att fuel (.inl p)).getD [])

/-- Execution-mode resolution of registry contents (cache aside). -/
def chainExc (absL : List (AbsEntry M)) (relL : List (RelEntry M)) :
    Except StackError (List (MwEntry M)) :=
  (attachFromExc (nameMap absL relL) 0 relL).map
    (fun att => mainChainFrom att absL (expansionFuel relL))

/-- Inspection-mode resolution of registry contents. -/
def chainDbg (absL : List (AbsEntry M)) (relL : List (RelEntry M)) :
    List (MwEntry M) :=
  mainChainFrom (attachFromDbg (nameMap absL relL) 0 relL) absL (expansionFuel relL)

/-- `getMiddlewareList(debug)`: serve the cache in execution mode when it is
set, otherwise recompute; only execution mode writes the cache, and only
execution mode can throw. -/
def Stack.getMiddlewareList (s : Stack M) (debug : Bool) :
    Except StackError (List (MwEntry M) × Stack M) :=
  match debug, s.cachedMiddlewareList with
  | false, some l => .ok (l, s)
  | true, _ => .ok (chainDbg s.absoluteEntries s.relativeEntries, s)
  | false, none =>
    (chainExc s.absoluteEntries s.relativeEntries).map
      (fun l => (l, { s with cachedMiddlewareList := some l }))

/-- The composition loop of `resolve`: `for i = length-1 downto 0:
handler = list[i].middleware(handler, context)`. -/
def composeLoop {H C : Type} (l : List (MwEntry (H → C → H))) (handler : H) (context : C) : H :=
  l.reverse.foldl (fun h e => e.middleware h context) handler

/-- `stack.resolve(handler, context)` (the optional diagnostic print is a
side effect outside this value-level model). -/
def Stack.resolve {H C : Type} (s : Stack (H → C → H)) (handler : H) (context : C) :
    Except StackError (H × Stack (H → C → H)) :=
  (s.getMiddlewareList false).map (fun p => (composeLoop p.1 handler context, p.2))

def stepString : Step → String
  | .initialize_ => "initialize"
  | .serialize => "serialize"
  | .build => "build"
  | .finalizeRequest => "finalizeRequest"
  | .deserialize => "deserialize"

def relationString : Relation → String
  | .before => "before"
  | .after => "after"

/-- The per-entry line of `identify`: name plus step, or relation and anchor
for a relative entry (whose `step` property is absent). -/
def MwEntry.describe : MwEntry M → String
  | .abs e => getMiddlewareNameWithAliases e.name e.aliases ++ " - " ++ stepString e.step
  | .rel e => getMiddlewareNameWithAliases e.name e.aliases ++ " - " ++
      relationString e.relation ++ " " ++ e.toMiddleware

/-- `identify()`: inspection-mode resolution rendered as strings. -/
def Stack.identify (s : Stack M) : List String :=
  (chainDbg s.absoluteEntries s.relativeEntries).map MwEntry.describe

/-- The options `{...entry}` reconstructs when an entry is re-added through
the public path (every stored field comes back, the flags included). -/
def AbsEntry.toOptions (e : AbsEntry M) : AddOptions :=
  { name := e.name, aliases := e.aliases, tags := e.tags,
    step := some e.step, priority := some e.priority, override := e.override }

def RelEntry.toOptions (e : RelEntry M) : RelOptions :=
  { name := e.name, aliases := e.aliases, tags := e.tags,
    toMiddleware := e.toMiddleware, relation := e.relation, override := e.override }

/-- The absolute-entry loop of `_addBulk`: colliding entries fall back to the
full `add` path (whose throw aborts the whole bulk operation), the rest are
appended directly with their aliases reserved. -/
def bulkAbs (s : Stack M) : List (AbsEntry M) → Stack M × Option StackError
  | [] => (s, none)
  | e :: rest =>
    let aliases := getAllAliases e.name e.aliases
    if aliases ≠ [] ∧ aliases.any s.entriesNameSet.hasName then
      match s.add e.middleware e.toOptions with
      | (s', none) => bulkAbs s' rest
      | (s', some err) => (s', some err)
    else
      bulkAbs { s with
        absoluteEntries := s.absoluteEntries ++ [e]
        entriesNameSet := s.entriesNameSet.addAll aliases } rest

/-- The relative-entry loop of `_addBulk`. -/
def bulkRel (s : Stack M) : List (RelEntry M) → Stack M × Option StackError
  | [] => (s, none)
  | e :: rest =>
    let aliases := getAllAliases e.name e.aliases
    if aliases ≠ [] ∧ aliases.any s.entriesNameSet.hasName then
      match s.addRelativeTo e.middleware e.toOptions with
      | (s', none) => bulkRel s' rest
      | (s', some err) => (s', some err)
    else
      bulkRel { s with
        relativeEntries := s.relativeEntries ++ [e]
        entriesNameSet := s.entriesNameSet.addAll aliases } rest

/-- `_addBulk(absoluteEntries, relativeEntries)`: both loops, then one cache
invalidation — skipped when a fallback `add` throws out of the batch. -/
def Stack.addBulk (s : Stack M) (absEs : List (AbsEntry M)) (relEs : List (RelEntry M)) :
    Stack M × Option StackError :=
  match bulkAbs s absEs with
  | (s', some err) => (s', some err)
  | (s', none) =>
    match bulkRel s' relEs with
    | (s'', some err) => (s'', some err)
    | (s'', none) => ({ s'' with cachedMiddlewareList := none }, none)

/-- `cloneTo(toStack)` on a target that exposes `_addBulk` (this same
implementation does), then copying the `identifyOnResolve` flag. -/
def Stack.cloneTo (s : Stack M) (toStack : Stack M) : Stack M × Option StackError :=
  match toStack.addBulk s.absoluteEntries s.relativeEntries with
  | (t, some err) => (t, some err)
  | (t, none) => ({ t with identifyOnResolve := s.identifyOnResolve }, none)

/-- `clone()`. -/
def Stack.clone (s : Stack M) : Stack M × Option StackError :=
  s.cloneTo {}

/-- Reference loop for the Transfer claim, built from the words of the spec:
the single-entry `add` calls over all source absolute entries in order. -/
def seqAddAll (s : Stack M) : List (AbsEntry M) → Stack M × Option StackError
  | [] => (s, none)
  | e :: rest =>
    match s.add e.middleware e.toOptions with
    | (s', none) => seqAddAll s' rest
    | (s', some err) => (s', some err)

/-- Reference loop for the Transfer claim: single-entry `addRelativeTo`
calls in order. -/
def seqAddRelAll (s : Stack M) : List (RelEntry M) → Stack M × Option StackError
  | [] => (s, none)
  | e :: rest =>
    match s.addRelativeTo e.middleware e.toOptions with
    | (s', none) => seqAddRelAll s' rest
    | (s', some err) => (s', some err)

/-- Reference semantics the spec says `_addBulk` must be observationally
identical to: loop the single-entry calls over all source entries in order
(absolute entries first, as `cloneTo`'s fallback loop does). -/
def seqTransfer (s : Stack M) (absEs : List (AbsEntry M)) (relEs : List (RelEntry M)) :
    Stack M × Option StackError :=
  match seqAddAll s absEs with
  | (s', some err) => (s', some err)
  | (s', none) => seqAddRelAll s' relEs

/-- The comparator key of `sort`, as a lexicographic pair. -/
def sortKey (e : AbsEntry M) : Nat × Nat :=
  (stepWeights e.step, priorityWeights e.priority)

/-- Spec-side invariant: a present cache matches a fresh execution-mode
resolution of the current registry contents. -/
def CacheOK (s : Stack M) : Prop :=
  ∀ l, s.cachedMiddlewareList = some l →
    chainExc s.absoluteEntries s.relativeEntries = .ok l

/-- A node indexes its own entry in the registry lists. -/
def nodeOk (absL : List (AbsEntry M)) (relL : List (RelEntry M)) : Node M → Prop
  | .inl p => absL[p.1]? = some p.2
  | .inr p => relL[p.1]? = some p.2

/-- Ancestor chains of a node through the attachment records: the recorded
relative-entry indices from the node up to (excluding) an absolute root. -/
inductive AncChain (att : List (Att M)) : Node M → List Nat → Prop
  | root (p : Nat × AbsEntry M) : AncChain att (.inl p) []
  | step (c : Nat × RelEntry M) (n : Node M) (r : Relation) (ch : List Nat)
      (hmem : (c, n, r) ∈ att) (hch : AncChain att n ch) :
      AncChain att (.inr c) (c.1 :: ch)

/-- The first entry of the shared two-entry example registry. -/
def exXe : AbsEntry Nat := { middleware := 1, name := some "x" }

/-- The second entry of the shared two-entry example registry. -/
def exYe : AbsEntry Nat := { middleware := 2, name := some "y", step := .serialize }

/-- Concrete registry used by several counterexamples: absolute entries
named x (initialize) and y (serialize), resolved once so the chain is
cached. -/
def exTwoNamed : Stack Nat :=
  ((Stack.add {} 1 { name := some "x" }).1.add 2
    { name := some "y", step := some .serialize }).1

/-- `exTwoNamed` with its chain cached by one execution-mode resolution. -/
def exTwoNamedCached : Stack Nat :=
  match exTwoNamed.getMiddlewareList false with
  | .ok p => p.2
  | .error _ => exTwoNamed

/-- An `add` call on `exTwoNamedCached` that collides on both names, matches
on x but mismatches on y, so the override loop removes x before throwing. -/
def exPartialAdd : Stack Nat × Option StackError :=
  exTwoNamedCached.add 3 { name := some "x", aliases := ["y"], override := true }

/-- A registry whose middleware are actual handler decorators
(`H = C = Nat`), for exercising `resolve`. -/
def exFnStack : Stack (Nat → Nat → Nat) :=
  ((Stack.add {} (fun h c => h + c) {}).1.add (fun h c => h * 2 + c)
    { step := some .serialize }).1

/-- The chain `exFnStack` resolves to. -/
def exFnChain : List (MwEntry (Nat → Nat → Nat)) :=
  match exFnStack.getMiddlewareList false with
  | .ok p => p.1
  | .error _ => []

/-- `exFnStack` after its first execution-mode resolution. -/
def exFnStackRes : Stack (Nat → Nat → Nat) :=
  match exFnStack.getMiddlewareList false with
  | .ok p => p.2
  | .error _ => exFnStack

/-- A registry with cyclic anchoring: R1 anchored before R2, R2 anchored
before R1, next to one absolute entry. -/
def exCyclic : Stack Nat :=
  (((Stack.add {} 1 { name := some "A" }).1.addRelativeTo 31
    { name := some "R1", toMiddleware := "R2", relation := .before }).1.addRelativeTo 32
    { name := some "R2", toMiddleware := "R1", relation := .before }).1

/-- The first relative entry of `exCyclic`, anchored to R2. -/
def exR1 : RelEntry Nat :=
  { middleware := 31, name := some "R1", toMiddleware := "R2", relation := .before }

/-- The second relative entry of `exCyclic`, anchored back to R1. -/
def exR2 : RelEntry Nat :=
  { middleware := 32, name := some "R2", toMiddleware := "R1", relation := .before }

/-- An entry named n followed by an anonymous entry with the same step and
priority: the base for the position-preservation counterexample. -/
def exPosBase : Stack Nat :=
  ((Stack.add {} 1 { name := some "n" }).1.add 2 {}).1

/-- Overriding n on `exPosBase` with matching step and priority. -/
def exPosOverride : Stack Nat × Option StackError :=
  exPosBase.add 3 { name := some "n", override := true }

/-- A relative entry whose anchor name is the empty string (falsy in JS),
next to one absolute entry; no entry carries the empty alias. -/
def exEmptyAnchor : Stack Nat :=
  ((Stack.add {} 1 {}).1.addRelativeTo 2 { toMiddleware := "", relation := .before }).1

/-- Bulk-transfer source: an anonymous entry then an entry colliding with
`exTwoNamedCached`'s x. -/
def exBulkSrcAbs : List (AbsEntry Nat) :=
  [{ middleware := 7 }, { middleware := 8, name := some "x" }]

/-- `_addBulk` of that source into the cached registry. -/
def exBulkRes : Stack Nat × Option StackError :=
  exTwoNamedCached.addBulk exBulkSrcAbs []

/-- The sequential single-entry loop of the same transfer. -/
def exSeqRes : Stack Nat × Option StackError :=
  seqTransfer exTwoNamedCached exBulkSrcAbs []

/-- The attachment records the debug attachment loop produces for given
registry contents (the execution-mode loop produces the same records when
it does not throw). -/
def attachOf (absL : List (AbsEntry M)) (relL : List (RelEntry M)) : List (Att M) :=
  attachFromDbg (nameMap absL relL) 0 relL

/-- Expansion at the default fuel over the standard attachments. -/
def expandAll (absL : List (AbsEntry M)) (relL : List (RelEntry M)) :
    Node M → Option (List (MwEntry M)) :=
  expandFuel (attachOf absL relL) (expansionFuel relL)

/-- A registry with one absolute entry A, one entry anchored before A and
one anchored after A. -/
def exRelStack : Stack Nat :=
  (((Stack.add {} 1 { name := some "A" }).1.addRelativeTo 10
    { name := some "X", toMiddleware := "A", relation := .before }).1.addRelativeTo 11
    { name := some "P", toMiddleware := "A", relation := .after }).1

/-- A registry with a relative entry anchored to a name no entry carries. -/
def exDangling : Stack Nat :=
  ((Stack.add {} 1 { name := some "A" }).1.addRelativeTo 13
    { name := some "Y", toMiddleware := "ZZ", relation := .after }).1

/-- Attachment records have pairwise distinct relative-entry indices, so
each relative entry has at most one parent. -/
def attKeyFun (att : List (Att M)) : Prop :=
  ∀ t ∈ att, ∀ u ∈ att, t.1.1 = u.1.1 → t = u

/-- Every attachment record points at coherent nodes of the registry. -/
def attNodesOk (absL : List (AbsEntry M)) (relL : List (RelEntry M))
    (att : List (Att M)) : Prop :=
  ∀ t ∈ att, nodeOk absL relL t.2.1 ∧ relL[t.1.1]? = some t.1.2

theorem scanHitAbs_removed_sublist (entry : AbsEntry M) (a : String) :
    ∀ (l l' : List (AbsEntry M)), scanHitAbs entry a l = .removed l' → l'.Sublist l := by
  intro l
  induction l with
  | nil => intro l' h; simp [scanHitAbs] at h
  | cons e rest ih =>
    intro l' h
    unfold scanHitAbs at h
    split at h
    · split at h
      · cases h
      · cases h; exact List.sublist_cons_self e rest
    · cases hrec : scanHitAbs entry a rest with
      | noHit => rw [hrec] at h; cases h
      | removed l'' => rw [hrec] at h; cases h; exact (ih l'' hrec).cons₂ e
      | mismatch err => rw [hrec] at h; cases h

theorem scanHitAbs_removed_count [DecidableEq M] (entry : AbsEntry M) (a : String) :
    ∀ (l l' : List (AbsEntry M)), scanHitAbs entry a l = .removed l' →
      ∀ x, l'.count x < l.count x → x.step = entry.step ∧ entry.priority = x.priority := by
  intro l
  induction l with
  | nil => intro l' h; simp [scanHitAbs] at h
  | cons e rest ih =>
    intro l' h x hx
    unfold scanHitAbs at h
    split at h
    · split at h
      · cases h
      · rename_i hmatch
        cases h
        push_neg at hmatch
        by_cases hxe : x = e
        · subst hxe; exact ⟨hmatch.1, hmatch.2⟩
        · have hbe : (e == x) = false := beq_eq_false_iff_ne.mpr (fun hh => hxe hh.symm)
          rw [List.count_cons, hbe] at hx
          simp at hx
    · cases hrec : scanHitAbs entry a rest with
      | noHit => rw [hrec] at h; cases h
      | removed l'' =>
        rw [hrec] at h; cases h
        rw [List.count_cons, List.count_cons] at hx
        exact ih l'' hrec x (by omega)
      | mismatch err => rw [hrec] at h; cases h

theorem overrideScanAbs_sublist (entry : AbsEntry M) :
    ∀ (as : List String) (l : List (AbsEntry M)),
      (overrideScanAbs entry as l).1.Sublist l := by
  intro as
  induction as with
  | nil => intro l; simp [overrideScanAbs]
  | cons a rest ih =>
    intro l
    unfold overrideScanAbs
    cases hs : scanHitAbs entry a l with
    | noHit => exact ih l
    | removed l' => exact (ih l').trans (scanHitAbs_removed_sublist entry a l l' hs)
    | mismatch err => exact List.Sublist.refl l

theorem scanHitRel_removed_sublist (entry : RelEntry M) (a : String) :
    ∀ (l l' : List (RelEntry M)), scanHitRel entry a l = .removed l' → l'.Sublist l := by
  intro l
  induction l with
  | nil => intro l' h; simp [scanHitRel] at h
  | cons e rest ih =>
    intro l' h
    unfold scanHitRel at h
    split at h
    · split at h
      · cases h
      · cases h; exact List.sublist_cons_self e rest
    · cases hrec : scanHitRel entry a rest with
      | noHit => rw [hrec] at h; cases h
      | removed l'' => rw [hrec] at h; cases h; exact (ih l'' hrec).cons₂ e
      | mismatch err => rw [hrec] at h; cases h

theorem overrideScanRel_sublist (entry : RelEntry M) :
    ∀ (as : List String) (l : List (RelEntry M)),
      (overrideScanRel entry as l).1.Sublist l := by
  intro as
  induction as with
  | nil => intro l; simp [overrideScanRel]
  | cons a rest ih =>
    intro l
    unfold overrideScanRel
    cases hs : scanHitRel entry a l with
    | noHit => exact ih l
    | removed l' => exact (ih l').trans (scanHitRel_removed_sublist entry a l l' hs)
    | mismatch err => exact List.Sublist.refl l

theorem scanHitAbs_mismatch_shape (entry : AbsEntry M) (a : String) :
    ∀ (l : List (AbsEntry M)) (err : StackError),
      scanHitAbs entry a l = .mismatch err → err.isOverrideMismatch = true := by
  intro l
  induction l with
  | nil => intro err h; simp [scanHitAbs] at h
  | cons e rest ih =>
    intro err h
    unfold scanHitAbs at h
    split at h
    · split at h
      · cases h; rfl
      · cases h
    · cases hrec : scanHitAbs entry a rest with
      | noHit => rw [hrec] at h; cases h
      | removed l'' => rw [hrec] at h; cases h
      | mismatch e' => rw [hrec] at h; cases h; exact ih err hrec

theorem scanHitRel_mismatch_shape (entry : RelEntry M) (a : String) :
    ∀ (l : List (RelEntry M)) (err : StackError),
      scanHitRel entry a l = .mismatch err → err.isOverrideMismatch = true := by
  intro l
  induction l with
  | nil => intro err h; simp [scanHitRel] at h
  | cons e rest ih =>
    intro err h
    unfold scanHitRel at h
    split at h
    · split at h
      · cases h; rfl
      · cases h
    · cases hrec : scanHitRel entry a rest with
      | noHit => rw [hrec] at h; cases h
      | removed l'' => rw [hrec] at h; cases h
      | mismatch e' => rw [hrec] at h; cases h; exact ih err hrec

theorem overrideScanAbs_err_mismatch (entry : AbsEntry M) :
    ∀ (as : List String) (l : List (AbsEntry M)) (e : StackError),
      (overrideScanAbs entry as l).2 = some e → e.isOverrideMismatch = true := by
  intro as
  induction as with
  | nil => intro l e h; simp [overrideScanAbs] at h
  | cons a rest ih =>
    intro l e h
    unfold overrideScanAbs at h
    cases hs : scanHitAbs entry a l with
    | noHit => rw [hs] at h; exact ih l e h
    | removed l' => rw [hs] at h; exact ih l' e h
    | mismatch err =>
      rw [hs] at h
      simp only [Option.some.injEq] at h
      rw [← h]
      exact scanHitAbs_mismatch_shape entry a l err hs

theorem overrideScanRel_err_mismatch (entry : RelEntry M) :
    ∀ (as : List String) (l : List (RelEntry M)) (e : StackError),
      (overrideScanRel entry as l).2 = some e → e.isOverrideMismatch = true := by
  intro as
  induction as with
  | nil => intro l e h; simp [overrideScanRel] at h
  | cons a rest ih =>
    intro l e h
    unfold overrideScanRel at h
    cases hs : scanHitRel entry a l with
    | noHit => rw [hs] at h; exact ih l e h
    | removed l' => rw [hs] at h; exact ih l' e h
    | mismatch err =>
      rw [hs] at h
      simp only [Option.some.injEq] at h
      rw [← h]
      exact scanHitRel_mismatch_shape entry a l err hs

theorem scanHitRel_removed_count [DecidableEq M] (entry : RelEntry M) (a : String) :
    ∀ (l l' : List (RelEntry M)), scanHitRel entry a l = .removed l' →
      ∀ x, l'.count x < l.count x →
        x.toMiddleware = entry.toMiddleware ∧ x.relation = entry.relation := by
  intro l
  induction l with
  | nil => intro l' h; simp [scanHitRel] at h
  | cons e rest ih =>
    intro l' h x hx
    unfold scanHitRel at h
    split at h
    · split at h
      · cases h
      · rename_i hmatch
        cases h
        push_neg at hmatch
        by_cases hxe : x = e
        · subst hxe; exact ⟨hmatch.1, hmatch.2⟩
        · have hbe : (e == x) = false := beq_eq_false_iff_ne.mpr (fun hh => hxe hh.symm)
          rw [List.count_cons, hbe] at hx
          simp at hx
    · cases hrec : scanHitRel entry a rest with
      | noHit => rw [hrec] at h; cases h
      | removed l'' =>
        rw [hrec] at h; cases h
        rw [List.count_cons, List.count_cons] at hx
        exact ih l'' hrec x (by omega)
      | mismatch err => rw [hrec] at h; cases h

theorem overrideScanAbs_removed_count [DecidableEq M] (entry : AbsEntry M) :
    ∀ (as : List String) (l : List (AbsEntry M)) (x : AbsEntry M),
      (overrideScanAbs entry as l).1.count x < l.count x →
      x.step = entry.step ∧ entry.priority = x.priority := by
  intro as
  induction as with
  | nil =>
    intro l x h
    simp only [overrideScanAbs] at h
    exact absurd h (lt_irrefl _)
  | cons a rest ih =>
    intro l x h
    unfold overrideScanAbs at h
    cases hs : scanHitAbs entry a l with
    | noHit => rw [hs] at h; exact ih l x h
    | removed l' =>
      rw [hs] at h
      replace h : (overrideScanAbs entry rest l').1.count x < l.count x := h
      by_cases hlt : (overrideScanAbs entry rest l').1.count x < l'.count x
      · exact ih l' x hlt
      · exact scanHitAbs_removed_count entry a l l' hs x (by omega)
    | mismatch err =>
      rw [hs] at h
      exact absurd h (lt_irrefl _)

theorem overrideScanRel_removed_count [DecidableEq M] (entry : RelEntry M) :
    ∀ (as : List String) (l : List (RelEntry M)) (x : RelEntry M),
      (overrideScanRel entry as l).1.count x < l.count x →
      x.toMiddleware = entry.toMiddleware ∧ x.relation = entry.relation := by
  intro as
  induction as with
  | nil =>
    intro l x h
    simp only [overrideScanRel] at h
    exact absurd h (lt_irrefl _)
  | cons a rest ih =>
    intro l x h
    unfold overrideScanRel at h
    cases hs : scanHitRel entry a l with
    | noHit => rw [hs] at h; exact ih l x h
    | removed l' =>
      rw [hs] at h
      replace h : (overrideScanRel entry rest l').1.count x < l.count x := h
      by_cases hlt : (overrideScanRel entry rest l').1.count x < l'.count x
      · exact ih l' x hlt
      · exact scanHitRel_removed_count entry a l l' hs x (by omega)
    | mismatch err =>
      rw [hs] at h
      exact absurd h (lt_irrefl _)

/-- C1 (as stated) is false on the code: on a registry with entries named x
(initialize) and y (serialize), both resolved into a cached chain, an
`add` with `override: true` colliding on both x and y fails with
OverrideMismatch on y — but only after the loop has already spliced the x
entry out, so the absolute-entry list is not what it was before the call
(and the cached chain still lists both entries). -/
theorem c1_cex :
    exPartialAdd.2 = some (.overrideMismatchAbs "y" .normal .serialize
      "x (a.k.a. y)" .normal .initialize_) ∧
    exPartialAdd.1.absoluteEntries ≠ exTwoNamedCached.absoluteEntries ∧
    exPartialAdd.1.absoluteEntries.length + 1 = exTwoNamedCached.absoluteEntries.length := by
  decide

/-- Branch equation: `add` with no name and no aliases just appends. -/
theorem Stack.add_anon (s : Stack M) (mw : M) (o : AddOptions)
    (h0 : getAllAliases o.name o.aliases = []) :
    s.add mw o = ({ s with
      absoluteEntries := s.absoluteEntries ++ [o.toEntry mw]
      cachedMiddlewareList := none }, none) := by
  unfold Stack.add
  simp [h0]

/-- Branch equation: `add` with names but no collision appends and reserves
the aliases. -/
theorem Stack.add_fresh (s : Stack M) (mw : M) (o : AddOptions)
    (h0 : ¬ getAllAliases o.name o.aliases = [])
    (h1 : ¬ (getAllAliases o.name o.aliases).any s.entriesNameSet.hasName = true) :
    s.add mw o = ({ s with
      absoluteEntries := s.absoluteEntries ++ [o.toEntry mw]
      entriesNameSet := s.entriesNameSet.addAll (getAllAliases o.name o.aliases)
      cachedMiddlewareList := none }, none) := by
  unfold Stack.add
  simp [h0, h1]

/-- Branch equation: a collision without override throws DuplicateName with
the state untouched. -/
theorem Stack.add_dup (s : Stack M) (mw : M) (o : AddOptions)
    (h0 : ¬ getAllAliases o.name o.aliases = [])
    (h1 : (getAllAliases o.name o.aliases).any s.entriesNameSet.hasName = true)
    (h2 : o.override = false) :
    s.add mw o =
      (s, some (.duplicateName (getMiddlewareNameWithAliases o.name o.aliases))) := by
  unfold Stack.add
  simp [h0, h1, h2]

/-- Branch equation: a collision with override runs the override loop. -/
theorem Stack.add_override (s : Stack M) (mw : M) (o : AddOptions)
    (h0 : ¬ getAllAliases o.name o.aliases = [])
    (h1 : (getAllAliases o.name o.aliases).any s.entriesNameSet.hasName = true)
    (h2 : o.override = true) :
    s.add mw o =
      (match overrideScanAbs (o.toEntry mw) (getAllAliases o.name o.aliases)
          s.absoluteEntries with
       | (abs, some err) => ({ s with absoluteEntries := abs }, some err)
       | (abs, none) => ({ s with
           absoluteEntries := abs ++ [o.toEntry mw]
           entriesNameSet := s.entriesNameSet.addAll (getAllAliases o.name o.aliases)
           cachedMiddlewareList := none }, none)) := by
  unfold Stack.add
  simp [h0, h1, h2]

/-- Branch equation: `addRelativeTo` with no name and no aliases. -/
theorem Stack.addRelativeTo_anon (s : Stack M) (mw : M) (o : RelOptions)
    (h0 : getAllAliases o.name o.aliases = []) :
    s.addRelativeTo mw o = ({ s with
      relativeEntries := s.relativeEntries ++ [o.toEntry mw]
      cachedMiddlewareList := none }, none) := by
  unfold Stack.addRelativeTo
  simp [h0]

/-- Branch equation: `addRelativeTo` with names but no collision. -/
theorem Stack.addRelativeTo_fresh (s : Stack M) (mw : M) (o : RelOptions)
    (h0 : ¬ getAllAliases o.name o.aliases = [])
    (h1 : ¬ (getAllAliases o.name o.aliases).any s.entriesNameSet.hasName = true) :
    s.addRelativeTo mw o = ({ s with
      relativeEntries := s.relativeEntries ++ [o.toEntry mw]
      entriesNameSet := s.entriesNameSet.addAll (getAllAliases o.name o.aliases)
      cachedMiddlewareList := none }, none) := by
  unfold Stack.addRelativeTo
  simp [h0, h1]

/-- Branch equation: `addRelativeTo` collision without override. -/
theorem Stack.addRelativeTo_dup (s : Stack M) (mw : M) (o : RelOptions)
    (h0 : ¬ getAllAliases o.name o.aliases = [])
    (h1 : (getAllAliases o.name o.aliases).any s.entriesNameSet.hasName = true)
    (h2 : o.override = false) :
    s.addRelativeTo mw o =
      (s, some (.duplicateName (getMiddlewareNameWithAliases o.name o.aliases))) := by
  unfold Stack.addRelativeTo
  simp [h0, h1, h2]

/-- Branch equation: `addRelativeTo` collision with override. -/
theorem Stack.addRelativeTo_override (s : Stack M) (mw : M) (o : RelOptions)
    (h0 : ¬ getAllAliases o.name o.aliases = [])
    (h1 : (getAllAliases o.name o.aliases).any s.entriesNameSet.hasName = true)
    (h2 : o.override = true) :
    s.addRelativeTo mw o =
      (match overrideScanRel (o.toEntry mw) (getAllAliases o.name o.aliases)
          s.relativeEntries with
       | (rel, some err) => ({ s with relativeEntries := rel }, some err)
       | (rel, none) => ({ s with
           relativeEntries := rel ++ [o.toEntry mw]
           entriesNameSet := s.entriesNameSet.addAll (getAllAliases o.name o.aliases)
           cachedMiddlewareList := none }, none)) := by
  unfold Stack.addRelativeTo
  simp [h0, h1, h2]

/-- C1 (amended): a failing `add` (resp. `addRelativeTo`) never touches the
name/alias uniqueness set, the cached resolved sequence, or the other
kind entry list, and never adds entries; a DuplicateName failure leaves
the registry exactly unchanged; but an OverrideMismatch failure may already
have removed prior matching entries (the result is a sublist of the
same-kind entry list, equal only up to those removals). -/
theorem c1_failed_add_state (s : Stack M) (mw : M) (oA : AddOptions) (oR : RelOptions) :
    (∀ s' err, s.add mw oA = (s', some err) →
      s'.entriesNameSet = s.entriesNameSet ∧
      s'.cachedMiddlewareList = s.cachedMiddlewareList ∧
      s'.relativeEntries = s.relativeEntries ∧
      s'.identifyOnResolve = s.identifyOnResolve ∧
      s'.absoluteEntries.Sublist s.absoluteEntries ∧
      (∀ nm, err = .duplicateName nm → s' = s)) ∧
    (∀ s' err, s.addRelativeTo mw oR = (s', some err) →
      s'.entriesNameSet = s.entriesNameSet ∧
      s'.cachedMiddlewareList = s.cachedMiddlewareList ∧
      s'.absoluteEntries = s.absoluteEntries ∧
      s'.identifyOnResolve = s.identifyOnResolve ∧
      s'.relativeEntries.Sublist s.relativeEntries ∧
      (∀ nm, err = .duplicateName nm → s' = s)) := by
  constructor
  · intro s' err h
    by_cases h0 : getAllAliases oA.name oA.aliases = []
    · rw [Stack.add_anon s mw oA h0] at h
      simp at h
    · by_cases h1 : (getAllAliases oA.name oA.aliases).any s.entriesNameSet.hasName = true
      · by_cases h2 : oA.override = true
        · rw [Stack.add_override s mw oA h0 h1 h2] at h
          rcases hsc : overrideScanAbs (oA.toEntry mw) (getAllAliases oA.name oA.aliases)
              s.absoluteEntries with ⟨abs2, errOpt⟩
          rw [hsc] at h
          cases errOpt with
          | none => simp at h
          | some e2 =>
            simp only [Prod.mk.injEq, Option.some.injEq] at h
            obtain ⟨hs, herr⟩ := h
            have hsub : abs2.Sublist s.absoluteEntries := by
              have := overrideScanAbs_sublist (oA.toEntry mw)
                (getAllAliases oA.name oA.aliases) s.absoluteEntries
              rw [hsc] at this
              exact this
            refine ⟨by rw [← hs], by rw [← hs], by rw [← hs], by rw [← hs],
              by rw [← hs]; exact hsub, ?_⟩
            intro nm hnm
            have hovr : e2.isOverrideMismatch = true :=
              overrideScanAbs_err_mismatch (oA.toEntry mw)
                (getAllAliases oA.name oA.aliases) s.absoluteEntries e2 (by rw [hsc])
            rw [herr, hnm] at hovr
            simp [StackError.isOverrideMismatch] at hovr
        · have h2f : oA.override = false := by
            revert h2; cases oA.override <;> simp
          rw [Stack.add_dup s mw oA h0 h1 h2f] at h
          simp only [Prod.mk.injEq, Option.some.injEq] at h
          obtain ⟨hs, herr⟩ := h
          exact ⟨by rw [← hs], by rw [← hs], by rw [← hs], by rw [← hs],
            by rw [← hs], fun nm hnm => hs.symm⟩
      · rw [Stack.add_fresh s mw oA h0 h1] at h
        simp at h
  · intro s' err h
    by_cases h0 : getAllAliases oR.name oR.aliases = []
    · rw [Stack.addRelativeTo_anon s mw oR h0] at h
      simp at h
    · by_cases h1 : (getAllAliases oR.name oR.aliases).any s.entriesNameSet.hasName = true
      · by_cases h2 : oR.override = true
        · rw [Stack.addRelativeTo_override s mw oR h0 h1 h2] at h
          rcases hsc : overrideScanRel (oR.toEntry mw) (getAllAliases oR.name oR.aliases)
              s.relativeEntries with ⟨rel2, errOpt⟩
          rw [hsc] at h
          cases errOpt with
          | none => simp at h
          | some e2 =>
            simp only [Prod.mk.injEq, Option.some.injEq] at h
            obtain ⟨hs, herr⟩ := h
            have hsub : rel2.Sublist s.relativeEntries := by
              have := overrideScanRel_sublist (oR.toEntry mw)
                (getAllAliases oR.name oR.aliases) s.relativeEntries
              rw [hsc] at this
              exact this
            refine ⟨by rw [← hs], by rw [← hs], by rw [← hs], by rw [← hs],
              by rw [← hs]; exact hsub, ?_⟩
            intro nm hnm
            have hovr : e2.isOverrideMismatch = true :=
              overrideScanRel_err_mismatch (oR.toEntry mw)
                (getAllAliases oR.name oR.aliases) s.relativeEntries e2 (by rw [hsc])
            rw [herr, hnm] at hovr
            simp [StackError.isOverrideMismatch] at hovr
        · have h2f : oR.override = false := by
            revert h2; cases oR.override <;> simp
          rw [Stack.addRelativeTo_dup s mw oR h0 h1 h2f] at h
          simp only [Prod.mk.injEq, Option.some.injEq] at h
          obtain ⟨hs, herr⟩ := h
          exact ⟨by rw [← hs], by rw [← hs], by rw [← hs], by rw [← hs],
            by rw [← hs], fun nm hnm => hs.symm⟩
      · rw [Stack.addRelativeTo_fresh s mw oR h0 h1] at h
        simp at h

theorem c1_failed_add_state_wit :
    exPartialAdd.1.entriesNameSet = exTwoNamedCached.entriesNameSet ∧
    exPartialAdd.1.absoluteEntries.Sublist exTwoNamedCached.absoluteEntries ∧
    (exTwoNamedCached.addRelativeTo 9
      { name := some "x", toMiddleware := "q", relation := .before }).1 = exTwoNamedCached := by
  have h1 := (c1_failed_add_state exTwoNamedCached 3
      { name := some "x", aliases := ["y"], override := true }
      { name := some "x", toMiddleware := "q", relation := .before }).1
      exPartialAdd.1
      (.overrideMismatchAbs "y" .normal .serialize "x (a.k.a. y)" .normal .initialize_)
      (Prod.ext_iff.mpr ⟨rfl, by decide⟩)
  have h2 := (c1_failed_add_state exTwoNamedCached 9
      { name := some "x", aliases := [], override := true }
      { name := some "x", toMiddleware := "q", relation := .before }).2
      (exTwoNamedCached.addRelativeTo 9
        { name := some "x", toMiddleware := "q", relation := .before }).1
      (.duplicateName "x")
      (Prod.ext_iff.mpr ⟨rfl, by decide⟩)
  exact ⟨h1.1, h1.2.2.2.2.1, h2.2.2.2.2.2 "x" rfl⟩

theorem isEmpty_false_of_mem {α : Type} {l : List α} {x : α} (h : x ∈ l) :
    l.isEmpty = false := by
  cases l with
  | nil => cases h
  | cons a as => rfl

/-- C10: adding an entry with neither a primary name nor aliases always
succeeds: no error, no removal, a plain append with the name/alias set
untouched (only the cache is invalidated); and such anonymous entries are
immune to removal by name — only removal by middleware reference or by tag
can delete them. -/
theorem c10_anonymous_add [DecidableEq M] (s : Stack M) (mwA mwR : M)
    (oA : AddOptions) (oR : RelOptions)
    (hAname : oA.name = none) (hAal : oA.aliases = [])
    (hRname : oR.name = none) (hRal : oR.aliases = []) :
    s.add mwA oA = ({ s with
      absoluteEntries := s.absoluteEntries ++ [oA.toEntry mwA]
      cachedMiddlewareList := none }, none) ∧
    s.addRelativeTo mwR oR = ({ s with
      relativeEntries := s.relativeEntries ++ [oR.toEntry mwR]
      cachedMiddlewareList := none }, none) ∧
    (∀ (t : Stack M) (nmq : String), ∀ e ∈ t.absoluteEntries,
      getAllAliases e.name e.aliases = [] → e ∈ (t.removeByName nmq).1.absoluteEntries) ∧
    (∀ (t : Stack M) (nmq : String), ∀ e ∈ t.relativeEntries,
      getAllAliases e.name e.aliases = [] → e ∈ (t.removeByName nmq).1.relativeEntries) ∧
    (∀ (t : Stack M) (mwq : M), ∀ e ∈ t.absoluteEntries,
      e.middleware = mwq → e ∉ (t.removeByReference mwq).1.absoluteEntries) ∧
    (∀ (t : Stack M) (tg : String), ∀ e ∈ t.absoluteEntries,
      e.tags.any (fun x => x = tg) = true → e ∉ (t.removeByTag tg).1.absoluteEntries) := by
  have hA0 : getAllAliases oA.name oA.aliases = [] := by
    rw [hAname, hAal]; rfl
  have hR0 : getAllAliases oR.name oR.aliases = [] := by
    rw [hRname, hRal]; rfl
  refine ⟨Stack.add_anon s mwA oA hA0, Stack.addRelativeTo_anon s mwR oR hR0, ?_, ?_, ?_, ?_⟩
  · intro t nmq e he hal
    simp only [Stack.removeByName]
    split
    · exact List.mem_filter.mpr ⟨he, by simp [hal]⟩
    · exact he
  · intro t nmq e he hal
    simp only [Stack.removeByName]
    split
    · exact List.mem_filter.mpr ⟨he, by simp [hal]⟩
    · exact he
  · intro t mwq e he hmw
    simp only [Stack.removeByReference]
    split
    · intro hmem
      have := (List.mem_filter.mp hmem).2
      simp [hmw] at this
    · rename_i hcond
      exfalso
      apply hcond
      have h1 := isEmpty_false_of_mem (List.mem_filter.mpr ⟨he, by simp [hmw]⟩
        : e ∈ t.absoluteEntries.filter (fun x => decide (x.middleware = mwq)))
      simp [h1]
  · intro t tg e he htg
    simp only [Stack.removeByTag]
    split
    · intro hmem
      have := (List.mem_filter.mp hmem).2
      simp [htg] at this
    · rename_i hcond
      exfalso
      apply hcond
      have h1 := isEmpty_false_of_mem (List.mem_filter.mpr ⟨he, htg⟩
        : e ∈ t.absoluteEntries.filter (fun x => x.tags.any (fun y => y = tg)))
      simp [h1]

theorem c10_anonymous_add_wit :
    (Stack.add ({} : Stack Nat) 7 {}).2 = none ∧
    (Stack.addRelativeTo ({} : Stack Nat) 7 { toMiddleware := "a", relation := .after }).2
      = none := by
  have h := c10_anonymous_add ({} : Stack Nat) 7 7 {}
    { toMiddleware := "a", relation := .after } rfl rfl rfl rfl
  exact ⟨by rw [h.1], by rw [h.2.1]⟩

theorem composeLoop_eq_foldr {H C : Type} (l : List (MwEntry (H → C → H)))
    (handler : H) (context : C) :
    composeLoop l handler context =
      l.foldr (fun e acc => e.middleware acc context) handler := by
  unfold composeLoop
  rw [List.foldl_reverse]

/-- C6: `resolve` folds right-to-left from the terminal handler: with chain
entries e1..en it returns e1(e2(...en(handler)...)); the first chain entry
is the outermost wrapper, composition only applies the stored middleware
functions. -/
theorem c6_resolve_fold {H C : Type} (s : Stack (H → C → H)) (handler : H) (context : C)
    (l : List (MwEntry (H → C → H))) (s2 : Stack (H → C → H))
    (h : s.getMiddlewareList false = .ok (l, s2)) :
    s.resolve handler context =
      .ok (l.foldr (fun e acc => e.middleware acc context) handler, s2) ∧
    (∀ (e : MwEntry (H → C → H)) (rest : List (MwEntry (H → C → H))) (hd : H),
      composeLoop (e :: rest) hd context = e.middleware (composeLoop rest hd context) context) ∧
    composeLoop ([] : List (MwEntry (H → C → H))) handler context = handler := by
  refine ⟨?_, ?_, rfl⟩
  · unfold Stack.resolve
    rw [h]
    simp [Except.map, composeLoop_eq_foldr]
  · intro e rest hd
    rw [composeLoop_eq_foldr, composeLoop_eq_foldr]
    rfl

theorem c6_resolve_fold_wit :
    exFnStack.resolve 5 7 = .ok (24, exFnStackRes) := by
  have h := (c6_resolve_fold exFnStack 5 7 exFnChain exFnStackRes rfl).1
  exact h

theorem attachFromDbg_mem (nm : String → Option (Node M)) :
    ∀ (k : Nat) (rl : List (RelEntry M)) (t : Att M), t ∈ attachFromDbg nm k rl →
      k ≤ t.1.1 ∧ t.1.1 < k + rl.length ∧ rl[t.1.1 - k]? = some t.1.2 ∧
      nm t.1.2.toMiddleware = some t.2.1 ∧ t.2.2 = t.1.2.relation ∧
      t.1.2.toMiddleware ≠ "" := by
  intro k rl
  induction rl generalizing k with
  | nil => intro t h; simp [attachFromDbg] at h
  | cons e rest ih =>
    intro t h
    unfold attachFromDbg at h
    by_cases hc : e.toMiddleware = ""
    · rw [if_pos hc] at h
      have hrec := ih (k + 1) t h
      have hidx : t.1.1 - k = (t.1.1 - (k + 1)) + 1 := by omega
      refine ⟨by omega, by simp only [List.length_cons]; omega, ?_, hrec.2.2.2.1,
        hrec.2.2.2.2.1, hrec.2.2.2.2.2⟩
      rw [hidx]
      simpa using hrec.2.2.1
    · rw [if_neg hc] at h
      cases hnm : nm e.toMiddleware with
      | none =>
        rw [hnm] at h
        have hrec := ih (k + 1) t h
        have hidx : t.1.1 - k = (t.1.1 - (k + 1)) + 1 := by omega
        refine ⟨by omega, by simp only [List.length_cons]; omega, ?_, hrec.2.2.2.1,
          hrec.2.2.2.2.1, hrec.2.2.2.2.2⟩
        rw [hidx]
        simpa using hrec.2.2.1
      | some n0 =>
        rw [hnm] at h
        rcases List.mem_cons.mp h with rfl | h'
        · exact ⟨le_refl k, by simp, by simp, by simpa using hnm, rfl, hc⟩
        · have hrec := ih (k + 1) t h'
          have hidx : t.1.1 - k = (t.1.1 - (k + 1)) + 1 := by omega
          refine ⟨by omega, by simp only [List.length_cons]; omega, ?_, hrec.2.2.2.1,
            hrec.2.2.2.2.1, hrec.2.2.2.2.2⟩
          rw [hidx]
          simpa using hrec.2.2.1

theorem attachFromDbg_keyFun (nm : String → Option (Node M)) :
    ∀ (k : Nat) (rl : List (RelEntry M)), attKeyFun (attachFromDbg nm k rl) := by
  intro k rl
  induction rl generalizing k with
  | nil => intro t ht; simp [attachFromDbg] at ht
  | cons e rest ih =>
    intro t ht u hu htu
    unfold attachFromDbg at ht hu
    by_cases hc : e.toMiddleware = ""
    · rw [if_pos hc] at ht hu
      exact ih (k + 1) t ht u hu htu
    · rw [if_neg hc] at ht hu
      cases hnm : nm e.toMiddleware with
      | none =>
        rw [hnm] at ht hu
        exact ih (k + 1) t ht u hu htu
      | some n0 =>
        rw [hnm] at ht hu
        rcases List.mem_cons.mp ht with rfl | ht'
        · rcases List.mem_cons.mp hu with rfl | hu'
          · rfl
          · exfalso
            have := (attachFromDbg_mem nm (k + 1) rest u hu').1
            simp only at htu
            omega
        · rcases List.mem_cons.mp hu with rfl | hu'
          · exfalso
            have := (attachFromDbg_mem nm (k + 1) rest t ht').1
            simp only at htu
            omega
          · exact ih (k + 1) t ht' u hu' htu

theorem nameMap_nodeOk (absL : List (AbsEntry M)) (relL : List (RelEntry M))
    (a : String) (n : Node M) (h : nameMap absL relL a = some n) :
    nodeOk absL relL n := by
  unfold nameMap at h
  cases hf : ((aliasWrites absL relL).reverse.find? (fun w => w.1 = a)) with
  | none => rw [hf] at h; cases h
  | some w =>
    rw [hf] at h
    replace h : w.2 = n := by simpa using h
    have hw : w ∈ (aliasWrites absL relL).reverse := List.mem_of_find?_eq_some hf
    rw [List.mem_reverse] at hw
    unfold aliasWrites at hw
    rcases List.mem_append.mp hw with hw' | hw'
    · rcases List.mem_flatMap.mp hw' with ⟨p, hp, hwp⟩
      rcases List.mem_map.mp hwp with ⟨al, _, rfl⟩
      rw [← h]
      have := List.mem_enumFrom (by simpa [List.enum] using hp :
        (p.1, p.2) ∈ List.enumFrom 0 absL)
      simp only [Nat.le_zero_eq, Nat.zero_add, Nat.sub_zero] at this
      simp only [nodeOk]
      rw [List.getElem?_eq_some]
      exact ⟨this.2.1, this.2.2.symm⟩
    · rcases List.mem_flatMap.mp hw' with ⟨p, hp, hwp⟩
      rcases List.mem_map.mp hwp with ⟨al, _, rfl⟩
      rw [← h]
      have := List.mem_enumFrom (by simpa [List.enum] using hp :
        (p.1, p.2) ∈ List.enumFrom 0 relL)
      simp only [Nat.le_zero_eq, Nat.zero_add, Nat.sub_zero] at this
      simp only [nodeOk]
      rw [List.getElem?_eq_some]
      exact ⟨this.2.1, this.2.2.symm⟩

theorem attachOf_keyFun (absL : List (AbsEntry M)) (relL : List (RelEntry M)) :
    attKeyFun (attachOf absL relL) :=
  attachFromDbg_keyFun (nameMap absL relL) 0 relL

theorem attachOf_nodesOk (absL : List (AbsEntry M)) (relL : List (RelEntry M)) :
    attNodesOk absL relL (attachOf absL relL) := by
  intro t ht
  have h := attachFromDbg_mem (nameMap absL relL) 0 relL t ht
  refine ⟨nameMap_nodeOk absL relL _ _ h.2.2.2.1, ?_⟩
  simpa using h.2.2.1

theorem nodeOk_key_inj (absL : List (AbsEntry M)) (relL : List (RelEntry M))
    (n n' : Node M) (h : nodeOk absL relL n) (h' : nodeOk absL relL n')
    (hk : n.key = n'.key) : n = n' := by
  cases n with
  | inl p =>
    cases n' with
    | inl q =>
      rcases p with ⟨i, e⟩
      rcases q with ⟨i', e'⟩
      simp only [Node.key, Sum.inl.injEq] at hk
      subst hk
      simp only [nodeOk] at h h'
      rw [h] at h'
      simp only [Option.some.injEq] at h'
      rw [h']
    | inr q => simp [Node.key] at hk
  | inr p =>
    cases n' with
    | inl q => simp [Node.key] at hk
    | inr q =>
      rcases p with ⟨i, e⟩
      rcases q with ⟨i', e'⟩
      simp only [Node.key, Sum.inr.injEq] at hk
      subst hk
      simp only [nodeOk] at h h'
      rw [h] at h'
      simp only [Option.some.injEq] at h'
      rw [h']

theorem childrenOf_mem (att : List (Att M)) (nk : Sum Nat Nat) (r : Relation)
    (c : Nat × RelEntry M) (h : c ∈ childrenOf att nk r) :
    ∃ n', ((c, n', r) ∈ att) ∧ Node.key n' = nk := by
  unfold childrenOf at h
  rcases List.mem_map.mp h with ⟨t, ht, hteq⟩
  have hf := List.mem_filter.mp ht
  have hpred := hf.2
  simp only [decide_eq_true_eq] at hpred
  obtain ⟨hkey, hrel⟩ := hpred
  refine ⟨t.2.1, ?_, hkey⟩
  have heq : (c, t.2.1, r) = t := by
    rw [← hteq, ← hrel]
  rw [heq]
  exact hf.1

theorem ancChain_unique (att : List (Att M)) (hkf : attKeyFun att) :
    ∀ (n : Node M) (c c' : List Nat), AncChain att n c → AncChain att n c' → c = c' := by
  intro n c c' h1 h2
  induction h1 generalizing c' with
  | root p => cases h2; rfl
  | step c0 n0 r ch hmem hch ih =>
    cases h2 with
    | step _ n1 r1 ch' hmem1 hch1 =>
      have heq := hkf _ hmem _ hmem1 rfl
      injection heq with _ heq2
      injection heq2 with heqn heqr
      rw [← heqn] at hch1
      rw [ih ch' hch1]

theorem ancChain_suffix (att : List (Att M)) :
    ∀ (n : Node M) (c : List Nat), AncChain att n c →
      ∀ (c1 : List Nat) (j : Nat) (c2 : List Nat), c = c1 ++ j :: c2 →
        ∃ c0 : Nat × RelEntry M, c0.1 = j ∧ AncChain att (.inr c0) (j :: c2) := by
  intro n c h
  induction h with
  | root p => intro c1 j c2 he; simp at he
  | step c0 n0 r ch hmem hch ih =>
    intro c1 j c2 he
    cases c1 with
    | nil =>
      simp only [List.nil_append, List.cons.injEq] at he
      obtain ⟨hj, hc⟩ := he
      refine ⟨c0, hj, ?_⟩
      rw [← hj, ← hc]
      exact .step c0 n0 r ch hmem hch
    | cons x c1' =>
      simp only [List.cons_append, List.cons.injEq] at he
      exact ih c1' j c2 he.2

theorem ancChain_nodup (att : List (Att M)) (hkf : attKeyFun att) :
    ∀ (n : Node M) (c : List Nat), AncChain att n c → c.Nodup := by
  intro n c h
  induction h with
  | root p => exact List.nodup_nil
  | step c0 n0 r ch hmem hch ih =>
    refine List.Pairwise.cons ?_ ih
    intro j hj hne
    rw [← hne] at hj
    obtain ⟨c1, c2, hsplit⟩ := List.append_of_mem hj
    obtain ⟨c0', hj', hanc⟩ := ancChain_suffix att n0 ch hch c1 c0.1 c2 hsplit
    rw [← hj'] at hanc
    cases hanc with
    | step _ n1 r1 _ hmem1 hch1 =>
      have heq := hkf _ hmem _ hmem1 (by rw [hj'])
      injection heq with heq1 heq2
      injection heq2 with heqn heqr
      rw [← heqn] at hch1
      have hchains := ancChain_unique att hkf n0 ch c2 hch hch1
      rw [hchains] at hsplit
      have : c2.length = c1.length + 1 + c2.length := by
        conv_lhs => rw [hsplit]
        simp [List.length_append]
        omega
      omega

theorem ancChain_mem_lt (absL : List (AbsEntry M)) (relL : List (RelEntry M))
    (att : List (Att M)) (hok : attNodesOk absL relL att) :
    ∀ (n : Node M) (c : List Nat), AncChain att n c → ∀ j ∈ c, j < relL.length := by
  intro n c h
  induction h with
  | root p => intro j hj; cases hj
  | step c0 n0 r ch hmem hch ih =>
    intro j hj
    rcases List.mem_cons.mp hj with rfl | hj'
    · have h2 := (hok _ hmem).2
      exact (List.getElem?_eq_some.mp h2).1
    · exact ih j hj'

theorem ancChain_length_le (absL : List (AbsEntry M)) (relL : List (RelEntry M))
    (att : List (Att M)) (hkf : attKeyFun att) (hok : attNodesOk absL relL att)
    (n : Node M) (c : List Nat) (h : AncChain att n c) : c.length ≤ relL.length := by
  have hnd := ancChain_nodup att hkf n c h
  have hlt := ancChain_mem_lt absL relL att hok n c h
  calc c.length = c.toFinset.card := (List.toFinset_card_of_nodup hnd).symm
    _ ≤ (Finset.range relL.length).card := by
        refine Finset.card_le_card ?_
        intro x hx
        exact Finset.mem_range.mpr (hlt x (List.mem_toFinset.mp hx))
    _ = relL.length := Finset.card_range _

theorem seqExpand_isSome (f : (Nat × RelEntry M) → Option (List (MwEntry M))) :
    ∀ cs : List (Nat × RelEntry M), (∀ c ∈ cs, (f c).isSome = true) →
      (seqExpand f cs).isSome = true := by
  intro cs
  induction cs with
  | nil => intro _; simp [seqExpand]
  | cons c cs ih =>
    intro h
    unfold seqExpand
    cases hf : f c with
    | none =>
      have := h c (List.mem_cons_self c cs)
      rw [hf] at this
      cases this
    | some l =>
      cases hs : seqExpand f cs with
      | none =>
        have := ih (fun c' hc' => h c' (List.mem_cons_of_mem c hc'))
        rw [hs] at this
        cases this
      | some ls => simp

theorem expandFuel_isSome (absL : List (AbsEntry M)) (relL : List (RelEntry M))
    (att : List (Att M)) (hkf : attKeyFun att) (hok : attNodesOk absL relL att) :
    ∀ (fuel : Nat) (n : Node M) (c : List Nat), AncChain att n c →
      nodeOk absL relL n → relL.length + 1 ≤ fuel + c.length →
      (expandFuel att fuel n).isSome = true := by
  intro fuel
  induction fuel with
  | zero =>
    intro n c hc _ hle
    exfalso
    have := ancChain_length_le absL relL att hkf hok n c hc
    omega
  | succ fuel ih =>
    intro n c hc hn hle
    have hchild : ∀ (r : Relation) (ch : Nat × RelEntry M), ch ∈ childrenOf att n.key r →
        (if isLeaf att ch.1 then some [MwEntry.rel ch.2]
         else expandFuel att fuel (.inr ch)).isSome = true := by
      intro r ch hchm
      split
      · simp
      · obtain ⟨n', hmem, hkey⟩ := childrenOf_mem att n.key r ch hchm
        have hn' : nodeOk absL relL n' := (hok _ hmem).1
        have heqn : n' = n := nodeOk_key_inj absL relL n' n hn' hn hkey
        rw [heqn] at hmem
        have hanc : AncChain att (.inr ch) (ch.1 :: c) := .step ch n r c hmem hc
        have hnode : nodeOk absL relL (.inr ch) := by
          simpa [nodeOk] using (hok _ hmem).2
        exact ih (.inr ch) (ch.1 :: c) hanc hnode
          (by simp only [List.length_cons]; omega)
    have h1 := seqExpand_isSome _ (childrenOf att n.key .before) (hchild .before)
    have h2 := seqExpand_isSome
      (fun ch => if isLeaf att ch.1 then some [MwEntry.rel ch.2]
        else expandFuel att fuel (.inr ch))
      (childrenOf att n.key .after).reverse
      (fun ch hch => hchild .after ch (List.mem_reverse.mp hch))
    unfold expandFuel
    cases hb : seqExpand (fun ch => if isLeaf att ch.1 then some [MwEntry.rel ch.2]
        else expandFuel att fuel (.inr ch)) (childrenOf att n.key .before) with
    | none => rw [hb] at h1; cases h1
    | some bs =>
      cases ha : seqExpand (fun ch => if isLeaf att ch.1 then some [MwEntry.rel ch.2]
          else expandFuel att fuel (.inr ch)) (childrenOf att n.key .after).reverse with
      | none => rw [ha] at h2; cases h2
      | some as_ => rfl

/-- C9 is false in its second half: anchoring cycles do NOT make resolution
recurse indefinitely.  Here R1 is anchored before R2 and R2 before R1 — a
2-cycle, visible in the attachment records below — yet execution-mode
resolution succeeds, returning the finite chain of just the absolute
entry; the cyclic entries are silently dropped. -/
theorem c9_cex :
    chainExc exCyclic.absoluteEntries exCyclic.relativeEntries =
      .ok [.abs { middleware := 1, name := some "A" }] ∧
    attachOf exCyclic.absoluteEntries exCyclic.relativeEntries =
      [((0, exR1), .inr (1, exR2), .before), ((1, exR2), .inr (0, exR1), .before)] :=
  ⟨rfl, rfl⟩

/-- C9 (amended): recursive relative expansion terminates for EVERY
registry, cyclic anchoring included.  Each relative entry is attached to
exactly one parent, so everything reachable from an absolute root is a
finite forest and fuel `relL.length + 1` always suffices; entries in an
anchoring cycle are unreachable from every root and are dropped from the
chain rather than expanded forever. -/
theorem c9_expansion_total (absL : List (AbsEntry M)) (relL : List (RelEntry M))
    (p : Nat × AbsEntry M) (hp : absL[p.1]? = some p.2) :
    (expandAll absL relL (.inl p)).isSome = true :=
  expandFuel_isSome absL relL (attachOf absL relL) (attachOf_keyFun absL relL)
    (attachOf_nodesOk absL relL) (expansionFuel relL) (.inl p) [] (.root p)
    (by simpa [nodeOk] using hp) (by simp [expansionFuel])

theorem c9_expansion_total_wit :
    (expandAll exCyclic.absoluteEntries exCyclic.relativeEntries
      (.inl (0, { middleware := 1, name := some "A" }))).isSome = true :=
  c9_expansion_total exCyclic.absoluteEntries exCyclic.relativeEntries
    (0, { middleware := 1, name := some "A" }) (by decide)

theorem seqExpand_congr_some (f g : (Nat × RelEntry M) → Option (List (MwEntry M))) :
    ∀ (cs : List (Nat × RelEntry M)) (out : List (MwEntry M)),
      seqExpand f cs = some out →
      (∀ c ∈ cs, ∀ v, f c = some v → g c = some v) →
      seqExpand g cs = some out := by
  intro cs
  induction cs with
  | nil => intro out h _; simpa [seqExpand] using h
  | cons c cs ih =>
    intro out h hfg
    unfold seqExpand at h ⊢
    cases hf : f c with
    | none => rw [hf] at h; cases h
    | some l =>
      rw [hf] at h
      cases hs : seqExpand f cs with
      | none => rw [hs] at h; cases h
      | some ls =>
        rw [hs] at h
        rw [hfg c (List.mem_cons_self c cs) l hf,
          ih ls hs (fun c' hc' => hfg c' (List.mem_cons_of_mem c hc'))]
        exact h

theorem expandFuel_mono (att : List (Att M)) :
    ∀ (f1 : Nat) (n : Node M) (out : List (MwEntry M)) (f2 : Nat),
      expandFuel att f1 n = some out → f1 ≤ f2 → expandFuel att f2 n = some out := by
  intro f1
  induction f1 with
  | zero => intro n out f2 h _; simp [expandFuel] at h
  | succ f1 ih =>
    intro n out f2 h hle
    cases f2 with
    | zero => omega
    | succ f2 =>
      have hle' : f1 ≤ f2 := by omega
      have hstep : ∀ (cs : List (Nat × RelEntry M)), ∀ c ∈ cs, ∀ v,
          (if isLeaf att c.1 then some [MwEntry.rel c.2]
           else expandFuel att f1 (.inr c)) = some v →
          (if isLeaf att c.1 then some [MwEntry.rel c.2]
           else expandFuel att f2 (.inr c)) = some v := by
        intro cs c _ v hv
        by_cases hl : isLeaf att c.1 = true
        · rwa [if_pos hl] at hv ⊢
        · rw [if_neg hl] at hv ⊢
          exact ih (.inr c) v f2 hv hle'
      unfold expandFuel at h ⊢
      cases hb : seqExpand (fun c => if isLeaf att c.1 then some [MwEntry.rel c.2]
          else expandFuel att f1 (.inr c)) (childrenOf att n.key .before) with
      | none => rw [hb] at h; cases h
      | some bs =>
        cases ha : seqExpand (fun c => if isLeaf att c.1 then some [MwEntry.rel c.2]
            else expandFuel att f1 (.inr c)) (childrenOf att n.key .after).reverse with
        | none => rw [hb, ha] at h; cases h
        | some as_ =>
          rw [hb, ha] at h
          rw [seqExpand_congr_some _ _ _ bs hb (hstep _),
            seqExpand_congr_some _ _ _ as_ ha (hstep _)]
          exact h

theorem expandFuel_leaf (att : List (Att M)) (fuel : Nat) (c : Nat × RelEntry M)
    (hl : isLeaf att c.1 = true) :
    expandFuel att (fuel + 1) (.inr c) = some [MwEntry.rel c.2] := by
  unfold isLeaf at hl
  rw [Bool.and_eq_true] at hl
  have hb : childrenOf att (Sum.inr c.1) .before = [] := by
    cases hcb : childrenOf att (Sum.inr c.1) .before with
    | nil => rfl
    | cons x xs => rw [hcb] at hl; simp [List.isEmpty] at hl
  have ha : childrenOf att (Sum.inr c.1) .after = [] := by
    cases hca : childrenOf att (Sum.inr c.1) .after with
    | nil => rfl
    | cons x xs => rw [hca] at hl; simp [List.isEmpty] at hl
  unfold expandFuel
  have hkey : Node.key (Sum.inr c : Node M) = Sum.inr c.1 := rfl
  rw [hkey, hb, ha]
  rfl

theorem seqExpand_eq_flatMap (f : (Nat × RelEntry M) → Option (List (MwEntry M)))
    (g : (Nat × RelEntry M) → List (MwEntry M)) :
    ∀ cs : List (Nat × RelEntry M), (∀ c ∈ cs, f c = some (g c)) →
      seqExpand f cs = some (cs.flatMap g) := by
  intro cs
  induction cs with
  | nil => intro _; simp [seqExpand]
  | cons c cs ih =>
    intro h
    unfold seqExpand
    rw [h c (List.mem_cons_self c cs), ih (fun c' hc' => h c' (List.mem_cons_of_mem c hc'))]
    rw [List.flatMap_cons]

/-- Depth-first expansion of any rooted node: the before children in
registration order, each recursively expanded; the node itself; the after
children in reverse registration order, each recursively expanded. -/
theorem expandAll_rooted_eq (absL : List (AbsEntry M)) (relL : List (RelEntry M))
    (n : Node M) (c : List Nat)
    (hc : AncChain (attachOf absL relL) n c) (hn : nodeOk absL relL n) :
    expandAll absL relL n = some (
      (childrenOf (attachOf absL relL) n.key .before).flatMap
        (fun ch => (expandAll absL relL (.inr ch)).getD []) ++ [n.toMw] ++
      (childrenOf (attachOf absL relL) n.key .after).reverse.flatMap
        (fun ch => (expandAll absL relL (.inr ch)).getD [])) := by
  have hkf := attachOf_keyFun absL relL
  have hok := attachOf_nodesOk absL relL
  have hsome : ∀ (r : Relation), ∀ ch ∈ childrenOf (attachOf absL relL) n.key r,
      (if isLeaf (attachOf absL relL) ch.1 then some [MwEntry.rel ch.2]
       else expandFuel (attachOf absL relL) relL.length (.inr ch)) =
      some ((expandAll absL relL (.inr ch)).getD []) := by
    intro r ch hchm
    obtain ⟨n', hmem, hkey⟩ := childrenOf_mem (attachOf absL relL) n.key r ch hchm
    have hn' : nodeOk absL relL n' := (hok _ hmem).1
    have heqn : n' = n := nodeOk_key_inj absL relL n' n hn' hn hkey
    rw [heqn] at hmem
    have hanc : AncChain (attachOf absL relL) (.inr ch) (ch.1 :: c) :=
      .step ch n _ c hmem hc
    have hnode : nodeOk absL relL (.inr ch) := by
      simpa [nodeOk] using (hok _ hmem).2
    by_cases hl : isLeaf (attachOf absL relL) ch.1 = true
    · rw [if_pos hl]
      have : expandAll absL relL (.inr ch) = some [MwEntry.rel ch.2] := by
        unfold expandAll expansionFuel
        exact expandFuel_leaf (attachOf absL relL) relL.length ch hl
      rw [this]
      rfl
    · rw [if_neg hl]
      have hks := expandFuel_isSome absL relL (attachOf absL relL) hkf hok
        relL.length (.inr ch) (ch.1 :: c) hanc hnode
        (by simp only [List.length_cons]; omega)
      cases hv : expandFuel (attachOf absL relL) relL.length (.inr ch) with
      | none => rw [hv] at hks; cases hks
      | some v =>
        have : expandAll absL relL (.inr ch) = some v := by
          unfold expandAll
          exact expandFuel_mono (attachOf absL relL) relL.length (.inr ch) v
            (expansionFuel relL) hv (by simp [expansionFuel])
        rw [this]
        rfl
  have hhead : expandAll absL relL n =
      match
        seqExpand (fun c => if isLeaf (attachOf absL relL) c.1 then some [MwEntry.rel c.2]
          else expandFuel (attachOf absL relL) relL.length (.inr c))
          (childrenOf (attachOf absL relL) n.key .before),
        seqExpand (fun c => if isLeaf (attachOf absL relL) c.1 then some [MwEntry.rel c.2]
          else expandFuel (attachOf absL relL) relL.length (.inr c))
          (childrenOf (attachOf absL relL) n.key .after).reverse with
      | some bs, some as_ => some (bs ++ [n.toMw] ++ as_)
      | _, _ => none := rfl
  rw [hhead, seqExpand_eq_flatMap _ _ _ (hsome .before),
    seqExpand_eq_flatMap _ _ _
      (fun ch hch => hsome .after ch (List.mem_reverse.mp hch))]

theorem attachFromDbg_idx_pairwise (nm : String → Option (Node M)) :
    ∀ (k : Nat) (rl : List (RelEntry M)),
      List.Pairwise (fun t u => t.1.1 < u.1.1) (attachFromDbg nm k rl) := by
  intro k rl
  induction rl generalizing k with
  | nil => simp [attachFromDbg]
  | cons e rest ih =>
    unfold attachFromDbg
    by_cases hc : e.toMiddleware = ""
    · rw [if_pos hc]; exact ih (k + 1)
    · rw [if_neg hc]
      cases hnm : nm e.toMiddleware with
      | none => exact ih (k + 1)
      | some n0 =>
        refine List.Pairwise.cons ?_ (ih (k + 1))
        intro u hu
        have := (attachFromDbg_mem nm (k + 1) rest u hu).1
        simp only
        omega

/-- C4: for every rooted node (in particular every anchor a relative entry
resolves to), its expansion lists the before children in registration
order, each recursively expanded, then the node itself, then the after
children in reverse registration order, each recursively expanded;
children lists are in ascending registration order; and the resolved chain
is the concatenation of the (sorted) absolute roots expansions, so each
root expansion appears contiguously. -/
theorem c4_relative_placement (absL : List (AbsEntry M)) (relL : List (RelEntry M))
    (n : Node M) (c : List Nat)
    (hc : AncChain (attachOf absL relL) n c) (hn : nodeOk absL relL n) :
    expandAll absL relL n = some (
      (childrenOf (attachOf absL relL) n.key .before).flatMap
        (fun ch => (expandAll absL relL (.inr ch)).getD []) ++ [n.toMw] ++
      (childrenOf (attachOf absL relL) n.key .after).reverse.flatMap
        (fun ch => (expandAll absL relL (.inr ch)).getD [])) ∧
    (∀ (nk : Sum Nat Nat) (r : Relation),
      List.Pairwise (fun t u => t.1 < u.1) (childrenOf (attachOf absL relL) nk r)) ∧
    (∀ p ∈ sortIndexed absL.enum, ∃ pre post,
      chainDbg absL relL = pre ++ (expandAll absL relL (.inl p)).getD [] ++ post) := by
  refine ⟨expandAll_rooted_eq absL relL n c hc hn, ?_, ?_⟩
  · intro nk r
    unfold childrenOf
    rw [List.pairwise_map]
    refine List.Pairwise.sublist (List.filter_sublist _) ?_
    exact attachFromDbg_idx_pairwise (nameMap absL relL) 0 relL
  · intro p hp
    obtain ⟨l1, l2, hsplit⟩ := List.append_of_mem hp
    refine ⟨l1.flatMap (fun q => (expandAll absL relL (.inl q)).getD []),
      l2.flatMap (fun q => (expandAll absL relL (.inl q)).getD []), ?_⟩
    unfold chainDbg mainChainFrom
    rw [hsplit, List.flatMap_append, List.flatMap_cons]
    simp [expandAll, attachOf, List.append_assoc]

theorem c4_relative_placement_wit :
    expandAll exRelStack.absoluteEntries exRelStack.relativeEntries
        (.inl (0, { middleware := 1, name := some "A" })) =
      some [.rel { middleware := 10, name := some "X", toMiddleware := "A",
                   relation := .before },
            .abs { middleware := 1, name := some "A" },
            .rel { middleware := 11, name := some "P", toMiddleware := "A",
                   relation := .after }] := by
  have h := (c4_relative_placement exRelStack.absoluteEntries exRelStack.relativeEntries
    (.inl (0, { middleware := 1, name := some "A" })) [] (.root _) (by rfl)).1
  rw [h]
  rfl

theorem sortsBefore_total (a b : AbsEntry M) : sortsBefore a b ∨ sortsBefore b a := by
  unfold sortsBefore
  rcases Nat.lt_trichotomy (stepWeights a.step) (stepWeights b.step) with h | h | h
  · right; left; exact h
  · rcases Nat.le_total (priorityWeights a.priority) (priorityWeights b.priority) with hp | hp
    · right; right; exact ⟨h, hp⟩
    · left; right; exact ⟨h.symm, hp⟩
  · left; left; exact h

theorem sortsBefore_trans (a b c : AbsEntry M) (h1 : sortsBefore a b)
    (h2 : sortsBefore b c) : sortsBefore a c := by
  unfold sortsBefore at h1 h2 ⊢
  rcases h1 with h1 | ⟨h1e, h1p⟩ <;> rcases h2 with h2 | ⟨h2e, h2p⟩
  · left; omega
  · left; omega
  · left; omega
  · right; exact ⟨by omega, by omega⟩

theorem sortsBefore_of_key_eq (a b : AbsEntry M) (h : sortKey a = sortKey b) :
    sortsBefore a b := by
  unfold sortKey at h
  simp only [Prod.mk.injEq] at h
  right
  exact ⟨h.1.symm, le_of_eq h.2.symm⟩

theorem mem_insertSorted (x y : Nat × AbsEntry M) :
    ∀ l : List (Nat × AbsEntry M), y ∈ insertSorted x l ↔ y = x ∨ y ∈ l := by
  intro l
  induction l with
  | nil => simp [insertSorted]
  | cons z zs ih =>
    unfold insertSorted
    split
    · simp [List.mem_cons]
    · simp only [List.mem_cons, ih]
      tauto

theorem pairwise_insertSorted (x : Nat × AbsEntry M) :
    ∀ l : List (Nat × AbsEntry M),
      List.Pairwise (fun t u => sortsBefore t.2 u.2) l →
      List.Pairwise (fun t u => sortsBefore t.2 u.2) (insertSorted x l) := by
  intro l
  induction l with
  | nil => intro _; simp [insertSorted]
  | cons z zs ih =>
    intro hp
    rcases List.pairwise_cons.mp hp with ⟨hz, hzs⟩
    unfold insertSorted
    split
    · rename_i hxz
      refine List.Pairwise.cons ?_ hp
      intro u hu
      rcases List.mem_cons.mp hu with rfl | hu'
      · exact hxz
      · exact sortsBefore_trans _ _ _ hxz (hz u hu')
    · rename_i hxz
      refine List.Pairwise.cons ?_ (ih hzs)
      intro u hu
      rcases (mem_insertSorted x u zs).mp hu with rfl | hu'
      · rcases sortsBefore_total u.2 z.2 with h | h
        · exact absurd h hxz
        · exact h
      · exact hz u hu'

theorem sortIndexed_pairwise (l : List (Nat × AbsEntry M)) :
    List.Pairwise (fun t u => sortsBefore t.2 u.2) (sortIndexed l) := by
  induction l with
  | nil => simp [sortIndexed]
  | cons x xs ih => exact pairwise_insertSorted x (sortIndexed xs) ih

theorem insertSorted_filter_key (x : Nat × AbsEntry M) (k : Nat × Nat) :
    ∀ l : List (Nat × AbsEntry M),
      (insertSorted x l).filter (fun p => decide (sortKey p.2 = k)) =
      if sortKey x.2 = k then x :: l.filter (fun p => decide (sortKey p.2 = k))
      else l.filter (fun p => decide (sortKey p.2 = k)) := by
  intro l
  induction l with
  | nil =>
    unfold insertSorted
    by_cases hk : sortKey x.2 = k <;> simp [hk]
  | cons z zs ih =>
    unfold insertSorted
    split
    · rename_i hxz
      by_cases hk : sortKey x.2 = k <;> simp [hk, List.filter_cons]
    · rename_i hxz
      have hkne : sortKey x.2 = k → ¬ sortKey z.2 = k := fun hxk hzk =>
        hxz (sortsBefore_of_key_eq x.2 z.2 (hxk.trans hzk.symm))
      by_cases hk : sortKey x.2 = k
      · have hz := hkne hk
        simp [List.filter_cons, hz, ih, hk]
      · by_cases hz : sortKey z.2 = k <;> simp [List.filter_cons, hz, ih, hk]

theorem sortIndexed_filter_key (k : Nat × Nat) :
    ∀ l : List (Nat × AbsEntry M),
      (sortIndexed l).filter (fun p => decide (sortKey p.2 = k)) =
      l.filter (fun p => decide (sortKey p.2 = k)) := by
  intro l
  induction l with
  | nil => rfl
  | cons x xs ih =>
    show (insertSorted x (sortIndexed xs)).filter _ = _
    rw [insertSorted_filter_key, ih, List.filter_cons]
    by_cases hk : sortKey x.2 = k <;> simp [hk]

theorem insertSorted_perm (x : Nat × AbsEntry M) :
    ∀ l : List (Nat × AbsEntry M), (insertSorted x l).Perm (x :: l) := by
  intro l
  induction l with
  | nil => exact List.Perm.refl _
  | cons z zs ih =>
    unfold insertSorted
    split
    · exact List.Perm.refl _
    · exact (ih.cons z).trans (List.Perm.swap x z zs)

theorem sortIndexed_perm (l : List (Nat × AbsEntry M)) :
    (sortIndexed l).Perm l := by
  induction l with
  | nil => exact List.Perm.refl _
  | cons x xs ih =>
    show (insertSorted x (sortIndexed xs)).Perm (x :: xs)
    exact (insertSorted_perm x (sortIndexed xs)).trans (ih.cons x)

theorem seqExpand_filter_nil (f : (Nat × RelEntry M) → Option (List (MwEntry M))) :
    ∀ (cs : List (Nat × RelEntry M)) (out : List (MwEntry M)),
      seqExpand f cs = some out →
      (∀ c ∈ cs, ∀ v, f c = some v → v.filter MwEntry.isAbs = []) →
      out.filter MwEntry.isAbs = [] := by
  intro cs
  induction cs with
  | nil =>
    intro out h _
    unfold seqExpand at h
    injection h with h
    rw [← h]
    rfl
  | cons c cs ih =>
    intro out h hf
    unfold seqExpand at h
    cases hfc : f c with
    | none => rw [hfc] at h; cases h
    | some l =>
      rw [hfc] at h
      cases hs : seqExpand f cs with
      | none => rw [hs] at h; cases h
      | some ls =>
        rw [hs] at h
        injection h with h
        rw [← h, List.filter_append, hf c (List.mem_cons_self c cs) l hfc,
          ih ls hs (fun c' hc' => hf c' (List.mem_cons_of_mem c hc'))]
        rfl

theorem expandFuel_filter_abs (att : List (Att M)) :
    ∀ (fuel : Nat) (n : Node M) (out : List (MwEntry M)),
      expandFuel att fuel n = some out →
      out.filter MwEntry.isAbs =
        (match n with | .inl p => [MwEntry.abs p.2] | .inr _ => []) := by
  intro fuel
  induction fuel with
  | zero => intro n out h; simp [expandFuel] at h
  | succ fuel ih =>
    intro n out h
    unfold expandFuel at h
    cases hb : seqExpand (fun c => if isLeaf att c.1 then some [MwEntry.rel c.2]
        else expandFuel att fuel (.inr c)) (childrenOf att n.key .before) with
    | none => rw [hb] at h; cases h
    | some bs =>
      cases ha : seqExpand (fun c => if isLeaf att c.1 then some [MwEntry.rel c.2]
          else expandFuel att fuel (.inr c)) (childrenOf att n.key .after).reverse with
      | none => rw [hb, ha] at h; cases h
      | some as_ =>
        rw [hb, ha] at h
        injection h with h
        have hchild : ∀ cs : List (Nat × RelEntry M), ∀ c ∈ cs, ∀ v,
            (if isLeaf att c.1 then some [MwEntry.rel c.2]
             else expandFuel att fuel (.inr c)) = some v →
            v.filter MwEntry.isAbs = [] := by
          intro cs c _ v hv
          by_cases hl : isLeaf att c.1 = true
          · rw [if_pos hl] at hv
            injection hv with hv
            rw [← hv]
            rfl
          · rw [if_neg hl] at hv
            simpa using ih (.inr c) v hv
        have h1 := seqExpand_filter_nil _ _ bs hb (hchild _)
        have h2 := seqExpand_filter_nil _ _ as_ ha (hchild _)
        rw [← h, List.filter_append, List.filter_append, h1, h2]
        cases n <;> simp [Node.toMw, MwEntry.isAbs]

theorem attachFromExc_ok_eq (nm : String → Option (Node M)) :
    ∀ (k : Nat) (rl : List (RelEntry M)) (l : List (Att M)),
      attachFromExc nm k rl = .ok l → l = attachFromDbg nm k rl := by
  intro k rl
  induction rl generalizing k with
  | nil =>
    intro l h
    unfold attachFromExc at h
    injection h with h
    rw [← h]
    rfl
  | cons e rest ih =>
    intro l h
    unfold attachFromExc at h
    unfold attachFromDbg
    by_cases hc : e.toMiddleware = ""
    · rw [if_pos hc] at h ⊢
      exact ih (k + 1) l h
    · rw [if_neg hc] at h ⊢
      cases hnm : nm e.toMiddleware with
      | none => rw [hnm] at h; cases h
      | some n0 =>
        rw [hnm] at h
        cases hrec : attachFromExc nm (k + 1) rest with
        | error err => rw [hrec] at h; simp [Except.map] at h
        | ok l' =>
          rw [hrec] at h
          simp only [Except.map, Except.ok.injEq] at h
          rw [← h, ih (k + 1) l' hrec]

theorem attachFromExc_error_shape (nm : String → Option (Node M)) :
    ∀ (k : Nat) (rl : List (RelEntry M)) (err : StackError),
      attachFromExc nm k rl = .error err →
      ∃ e ∈ rl, e.toMiddleware ≠ "" ∧ nm e.toMiddleware = none ∧
        err = .anchorNotFound e.toMiddleware
          (getMiddlewareNameWithAliases e.name e.aliases) e.relation := by
  intro k rl
  induction rl generalizing k with
  | nil => intro err h; unfold attachFromExc at h; cases h
  | cons e rest ih =>
    intro err h
    unfold attachFromExc at h
    by_cases hc : e.toMiddleware = ""
    · rw [if_pos hc] at h
      obtain ⟨e', he', hprop⟩ := ih (k + 1) err h
      exact ⟨e', List.mem_cons_of_mem e he', hprop⟩
    · rw [if_neg hc] at h
      cases hnm : nm e.toMiddleware with
      | none =>
        rw [hnm] at h
        injection h with h
        exact ⟨e, List.mem_cons_self e rest, hc, hnm, h.symm⟩
      | some n0 =>
        rw [hnm] at h
        cases hrec : attachFromExc nm (k + 1) rest with
        | error err' =>
          rw [hrec] at h
          simp only [Except.map] at h
          injection h with h
          obtain ⟨e', he', hprop1, hprop2, hprop3⟩ := ih (k + 1) err' hrec
          exact ⟨e', List.mem_cons_of_mem e he', hprop1, hprop2, by rw [← h, hprop3]⟩
        | ok l' => rw [hrec] at h; simp [Except.map] at h

theorem attachFromExc_error_of_dangling (nm : String → Option (Node M)) :
    ∀ (k : Nat) (rl : List (RelEntry M)),
      (∃ e ∈ rl, e.toMiddleware ≠ "" ∧ nm e.toMiddleware = none) →
      ∃ err, attachFromExc nm k rl = .error err := by
  intro k rl
  induction rl generalizing k with
  | nil => intro h; simp at h
  | cons e rest ih =>
    intro h
    unfold attachFromExc
    by_cases hc : e.toMiddleware = ""
    · rw [if_pos hc]
      rcases h with ⟨e', he', h1, h2⟩
      rcases List.mem_cons.mp he' with rfl | he''
      · exact absurd hc h1
      · exact ih (k + 1) ⟨e', he'', h1, h2⟩
    · rw [if_neg hc]
      cases hnm : nm e.toMiddleware with
      | none => exact ⟨_, rfl⟩
      | some n0 =>
        rcases h with ⟨e', he', h1, h2⟩
        rcases List.mem_cons.mp he' with rfl | he''
        · rw [hnm] at h2; cases h2
        · obtain ⟨err, herr⟩ := ih (k + 1) ⟨e', he'', h1, h2⟩
          rw [herr]
          exact ⟨err, rfl⟩

theorem chainExc_ok_eq_dbg (absL : List (AbsEntry M)) (relL : List (RelEntry M))
    (chain : List (MwEntry M)) (h : chainExc absL relL = .ok chain) :
    chain = chainDbg absL relL := by
  unfold chainExc at h
  cases hatt : attachFromExc (nameMap absL relL) 0 relL with
  | error e => rw [hatt] at h; simp [Except.map] at h
  | ok l =>
    rw [hatt] at h
    simp only [Except.map, Except.ok.injEq] at h
    rw [← h]
    unfold chainDbg
    rw [attachFromExc_ok_eq _ _ _ _ hatt]

theorem mem_enum_getElem {α : Type} (l : List α) (p : Nat × α) (hp : p ∈ l.enum) :
    l[p.1]? = some p.2 := by
  have := List.mem_enumFrom (by simpa [List.enum] using hp :
    (p.1, p.2) ∈ List.enumFrom 0 l)
  simp only [Nat.zero_add, Nat.sub_zero] at this
  rw [List.getElem?_eq_some]
  exact ⟨this.2.1, this.2.2.symm⟩

/-- C5: the absolute-entry subsequence of the resolved chain is exactly the
stable descending sort of the registered absolute entries: sorted by step
weight then priority weight (both descending), equal keys keeping
registration order (the filtered-by-key subsequences coincide with the
registration list), and the sorted list a permutation of the registration
list. -/
theorem c5_absolute_order (absL : List (AbsEntry M)) (relL : List (RelEntry M))
    (chain : List (MwEntry M)) (h : chainExc absL relL = .ok chain) :
    chain.filter MwEntry.isAbs = (sortIndexed absL.enum).map (fun p => MwEntry.abs p.2) ∧
    List.Pairwise (fun t u => sortsBefore t.2 u.2) (sortIndexed absL.enum) ∧
    (∀ k : Nat × Nat, (sortIndexed absL.enum).filter (fun p => decide (sortKey p.2 = k)) =
      absL.enum.filter (fun p => decide (sortKey p.2 = k))) ∧
    (sortIndexed absL.enum).Perm absL.enum := by
  refine ⟨?_, sortIndexed_pairwise _, fun k => sortIndexed_filter_key k _, sortIndexed_perm _⟩
  rw [chainExc_ok_eq_dbg absL relL chain h]
  unfold chainDbg mainChainFrom
  have hroot : ∀ p ∈ sortIndexed absL.enum,
      ((expandFuel (attachFromDbg (nameMap absL relL) 0 relL) (expansionFuel relL)
        (.inl p)).getD []).filter MwEntry.isAbs = [MwEntry.abs p.2] := by
    intro p hp
    have hp' : p ∈ absL.enum := (sortIndexed_perm absL.enum).mem_iff.mp hp
    have hpo : absL[p.1]? = some p.2 := mem_enum_getElem absL p hp'
    have hs := expandFuel_isSome absL relL (attachOf absL relL)
      (attachOf_keyFun absL relL) (attachOf_nodesOk absL relL)
      (expansionFuel relL) (.inl p) [] (.root p) (by simpa [nodeOk] using hpo)
      (by simp [expansionFuel])
    unfold attachOf at hs
    cases hv : expandFuel (attachFromDbg (nameMap absL relL) 0 relL)
        (expansionFuel relL) (.inl p) with
    | none => rw [hv] at hs; cases hs
    | some out =>
      have hfo := expandFuel_filter_abs (attachFromDbg (nameMap absL relL) 0 relL)
        (expansionFuel relL) (.inl p) out hv
      simpa using hfo
  have main : ∀ roots : List (Nat × AbsEntry M),
      (∀ p ∈ roots, ((expandFuel (attachFromDbg (nameMap absL relL) 0 relL)
          (expansionFuel relL) (.inl p)).getD []).filter MwEntry.isAbs =
        [MwEntry.abs p.2]) →
      (roots.flatMap (fun p => (expandFuel (attachFromDbg (nameMap absL relL) 0 relL)
          (expansionFuel relL) (.inl p)).getD [])).filter MwEntry.isAbs =
        roots.map (fun p => MwEntry.abs p.2) := by
    intro roots
    induction roots with
    | nil => intro _; rfl
    | cons p ps ih =>
      intro hr
      rw [List.flatMap_cons, List.filter_append, hr p (List.mem_cons_self p ps),
        ih (fun q hq => hr q (List.mem_cons_of_mem p hq)), List.map_cons]
      rfl
  exact main _ hroot

theorem c5_absolute_order_wit :
    ((chainExc exTwoNamed.absoluteEntries
        exTwoNamed.relativeEntries).toOption.getD []).filter MwEntry.isAbs =
      (sortIndexed exTwoNamed.absoluteEntries.enum).map (fun p => MwEntry.abs p.2) :=
  (c5_absolute_order exTwoNamed.absoluteEntries exTwoNamed.relativeEntries
    ((chainExc exTwoNamed.absoluteEntries
      exTwoNamed.relativeEntries).toOption.getD []) rfl).1

theorem exceptMap_error {α β : Type} (f : α → β) (x : Except StackError α)
    (err : StackError) : x.map f = .error err ↔ x = .error err := by
  cases x <;> simp [Except.map]

/-- C7 is false as stated: a relative entry whose anchor name is the empty
string resolves to no entry name or alias (the name map is empty here),
yet execution-mode resolution does not throw — the falsy anchor check
skips the entry, which is silently dropped from the chain in execution
mode too, not just in inspection mode. -/
theorem c7_cex :
    exEmptyAnchor.getMiddlewareList false =
      .ok ([.abs { middleware := 1 }],
        { exEmptyAnchor with cachedMiddlewareList := some [.abs { middleware := 1 }] }) ∧
    nameMap exEmptyAnchor.absoluteEntries exEmptyAnchor.relativeEntries "" = none ∧
    exEmptyAnchor.relativeEntries =
      [{ middleware := 2, toMiddleware := "", relation := .before }] :=
  ⟨rfl, rfl, rfl⟩

/-- C7 (amended): fresh (uncached) execution-mode resolution throws if and
only if some relative entry has a NONEMPTY anchor name that resolves to no
entry name or alias (an empty anchor name is skipped silently in both
modes); every such error is AnchorNotFound carrying the missing anchor and
the orphaned entry name with its aliases; inspection-mode resolution and
`identify` never throw, for any registry state. -/
theorem c7_anchor_errors (s : Stack M) (hcache : s.cachedMiddlewareList = none) :
    ((∃ err, s.getMiddlewareList false = .error err) ↔
      ∃ e ∈ s.relativeEntries, e.toMiddleware ≠ "" ∧
        nameMap s.absoluteEntries s.relativeEntries e.toMiddleware = none) ∧
    (∀ err, s.getMiddlewareList false = .error err →
      ∃ e ∈ s.relativeEntries, e.toMiddleware ≠ "" ∧
        nameMap s.absoluteEntries s.relativeEntries e.toMiddleware = none ∧
        err = .anchorNotFound e.toMiddleware
          (getMiddlewareNameWithAliases e.name e.aliases) e.relation) ∧
    s.getMiddlewareList true = .ok (chainDbg s.absoluteEntries s.relativeEntries, s) ∧
    s.identify = (chainDbg s.absoluteEntries s.relativeEntries).map MwEntry.describe := by
  have hred : s.getMiddlewareList false =
      (chainExc s.absoluteEntries s.relativeEntries).map
        (fun l => (l, { s with cachedMiddlewareList := some l })) := by
    unfold Stack.getMiddlewareList
    rw [hcache]
  have herrIff : ∀ err, s.getMiddlewareList false = .error err ↔
      attachFromExc (nameMap s.absoluteEntries s.relativeEntries) 0
        s.relativeEntries = .error err := by
    intro err
    rw [hred]
    rw [exceptMap_error]
    unfold chainExc
    rw [exceptMap_error]
  refine ⟨⟨?_, ?_⟩, ?_, rfl, rfl⟩
  · rintro ⟨err, herr⟩
    rw [herrIff err] at herr
    obtain ⟨e, he, h1, h2, _⟩ := attachFromExc_error_shape _ 0 _ err herr
    exact ⟨e, he, h1, h2⟩
  · rintro ⟨e, he, h1, h2⟩
    obtain ⟨err, herr⟩ := attachFromExc_error_of_dangling
      (nameMap s.absoluteEntries s.relativeEntries) 0 s.relativeEntries ⟨e, he, h1, h2⟩
    exact ⟨err, (herrIff err).mpr herr⟩
  · intro err herr
    rw [herrIff err] at herr
    obtain ⟨e, he, h1, h2, h3⟩ := attachFromExc_error_shape _ 0 _ err herr
    exact ⟨e, he, h1, h2, h3⟩

theorem c7_anchor_errors_wit :
    (∃ err, exDangling.getMiddlewareList false = .error err) ∧
    exDangling.getMiddlewareList true =
      .ok (chainDbg exDangling.absoluteEntries exDangling.relativeEntries, exDangling) := by
  have h := c7_anchor_errors exDangling rfl
  refine ⟨h.1.mpr ?_, h.2.2.1⟩
  exact ⟨{ middleware := 13, name := some "Y", toMiddleware := "ZZ", relation := .after },
    by decide, by decide, by rfl⟩

/-- C3 is false as stated: after the failed override `add` of
`exPartialAdd`, the cache still holds the pre-call two-entry chain while
the absolute-entry list has lost the x entry, so the cached sequence no
longer equals a fresh resolution — the invariant `CacheOK` is violated and
a later execution-mode resolution serves the stale chain. -/
theorem c3_cex :
    exPartialAdd.1.cachedMiddlewareList = some [.abs exXe, .abs exYe] ∧
    chainExc exPartialAdd.1.absoluteEntries exPartialAdd.1.relativeEntries =
      .ok [.abs exYe] ∧
    ¬ CacheOK exPartialAdd.1 := by
  refine ⟨rfl, rfl, ?_⟩
  intro hok
  have h1 := hok [MwEntry.abs exXe, MwEntry.abs exYe] rfl
  have h2 : (Except.ok [MwEntry.abs exYe] :
      Except StackError (List (MwEntry Nat))) = .ok [MwEntry.abs exXe, MwEntry.abs exYe] := by
    rw [← h1]
    rfl
  injection h2 with h3
  simp at h3

/-- C3 (amended): every successful `add`, `addRelativeTo` and `_addBulk`
invalidates the cache before returning, every removal invalidates it when
something was removed and leaves the registry untouched otherwise;
execution-mode resolution from a consistent state caches exactly the fresh
chain and serves the same value-equal chain on an immediately repeated
resolution without touching the entry lists; inspection-mode resolution
neither reads nor writes the cache.  A FAILED override add, however, can
mutate the entry lists while leaving a stale cache (see counterexample),
so cache consistency is only preserved across successful calls. -/
theorem c3_cache_discipline [DecidableEq M] (s : Stack M) :
    (∀ (mw : M) (o : AddOptions) (s' : Stack M), s.add mw o = (s', none) →
      s'.cachedMiddlewareList = none) ∧
    (∀ (mw : M) (o : RelOptions) (s' : Stack M), s.addRelativeTo mw o = (s', none) →
      s'.cachedMiddlewareList = none) ∧
    (∀ n, (s.removeByName n).2 = true →
      (s.removeByName n).1.cachedMiddlewareList = none) ∧
    (∀ n, (s.removeByName n).2 = false → (s.removeByName n).1 = s) ∧
    (∀ mw, (s.removeByReference mw).2 = true →
      (s.removeByReference mw).1.cachedMiddlewareList = none) ∧
    (∀ mw, (s.removeByReference mw).2 = false → (s.removeByReference mw).1 = s) ∧
    (∀ tg, (s.removeByTag tg).2 = true →
      (s.removeByTag tg).1.cachedMiddlewareList = none) ∧
    (∀ tg, (s.removeByTag tg).2 = false → (s.removeByTag tg).1 = s) ∧
    (∀ aEs rEs s', s.addBulk aEs rEs = (s', none) →
      s'.cachedMiddlewareList = none) ∧
    (∀ l s', CacheOK s → s.getMiddlewareList false = .ok (l, s') →
      CacheOK s' ∧ chainExc s.absoluteEntries s.relativeEntries = .ok l ∧
      s'.getMiddlewareList false = .ok (l, s') ∧
      s'.absoluteEntries = s.absoluteEntries ∧
      s'.relativeEntries = s.relativeEntries) ∧
    s.getMiddlewareList true = .ok (chainDbg s.absoluteEntries s.relativeEntries, s) := by
  have haddA : ∀ (mw : M) (o : AddOptions) (s' : Stack M), s.add mw o = (s', none) →
      s'.cachedMiddlewareList = none := by
    intro mw o s' h
    by_cases h0 : getAllAliases o.name o.aliases = []
    · rw [Stack.add_anon s mw o h0] at h
      injection h with h _
      rw [← h]
    · by_cases h1 : (getAllAliases o.name o.aliases).any s.entriesNameSet.hasName = true
      · by_cases h2 : o.override = true
        · rw [Stack.add_override s mw o h0 h1 h2] at h
          rcases hsc : overrideScanAbs (o.toEntry mw) (getAllAliases o.name o.aliases)
              s.absoluteEntries with ⟨abs2, errOpt⟩
          rw [hsc] at h
          cases errOpt with
          | none => injection h with h _; rw [← h]
          | some e2 => simp at h
        · have h2f : o.override = false := by revert h2; cases o.override <;> simp
          rw [Stack.add_dup s mw o h0 h1 h2f] at h
          simp at h
      · rw [Stack.add_fresh s mw o h0 h1] at h
        injection h with h _
        rw [← h]
  have haddR : ∀ (mw : M) (o : RelOptions) (s' : Stack M),
      s.addRelativeTo mw o = (s', none) → s'.cachedMiddlewareList = none := by
    intro mw o s' h
    by_cases h0 : getAllAliases o.name o.aliases = []
    · rw [Stack.addRelativeTo_anon s mw o h0] at h
      injection h with h _
      rw [← h]
    · by_cases h1 : (getAllAliases o.name o.aliases).any s.entriesNameSet.hasName = true
      · by_cases h2 : o.override = true
        · rw [Stack.addRelativeTo_override s mw o h0 h1 h2] at h
          rcases hsc : overrideScanRel (o.toEntry mw) (getAllAliases o.name o.aliases)
              s.relativeEntries with ⟨rel2, errOpt⟩
          rw [hsc] at h
          cases errOpt with
          | none => injection h with h _; rw [← h]
          | some e2 => simp at h
        · have h2f : o.override = false := by revert h2; cases o.override <;> simp
          rw [Stack.addRelativeTo_dup s mw o h0 h1 h2f] at h
          simp at h
      · rw [Stack.addRelativeTo_fresh s mw o h0 h1] at h
        injection h with h _
        rw [← h]
  refine ⟨haddA, haddR, ?_, ?_, ?_, ?_, ?_, ?_, ?_, ?_, rfl⟩
  · intro n h2
    simp only [Stack.removeByName] at h2 ⊢
    rw [if_pos h2]
  · intro n h2
    simp only [Stack.removeByName] at h2 ⊢
    rw [if_neg (by simp [h2])]
  · intro mw h2
    simp only [Stack.removeByReference] at h2 ⊢
    rw [if_pos h2]
  · intro mw h2
    simp only [Stack.removeByReference] at h2 ⊢
    rw [if_neg (by simp [h2])]
  · intro tg h2
    simp only [Stack.removeByTag] at h2 ⊢
    rw [if_pos h2]
  · intro tg h2
    simp only [Stack.removeByTag] at h2 ⊢
    rw [if_neg (by simp [h2])]
  · intro aEs rEs s' h
    unfold Stack.addBulk at h
    rcases hb : bulkAbs s aEs with ⟨s1, e1⟩
    rw [hb] at h
    cases e1 with
    | some err => simp at h
    | none =>
      have h2 : (match bulkRel s1 rEs with
          | (s2, some err) => (s2, some err)
          | (s2, none) => ({ s2 with cachedMiddlewareList := none }, none)) =
          ((s', none) : Stack M × Option StackError) := h
      rcases hr : bulkRel s1 rEs with ⟨s2, e2⟩
      rw [hr] at h2
      cases e2 with
      | some err => simp at h2
      | none =>
        injection h2 with h2 _
        rw [← h2]
  · intro l s' hok h
    cases hc : s.cachedMiddlewareList with
    | some l0 =>
      have hred : s.getMiddlewareList false = .ok (l0, s) := by
        unfold Stack.getMiddlewareList
        rw [hc]
      rw [hred] at h
      injection h with h
      injection h with hl hs
      rw [← hl, ← hs]
      have hfresh := hok l0 hc
      exact ⟨hok, hfresh, hred, rfl, rfl⟩
    | none =>
      have hred : s.getMiddlewareList false =
          (chainExc s.absoluteEntries s.relativeEntries).map
            (fun l => (l, { s with cachedMiddlewareList := some l })) := by
        unfold Stack.getMiddlewareList
        rw [hc]
      rw [hred] at h
      cases hch : chainExc s.absoluteEntries s.relativeEntries with
      | error e => rw [hch] at h; simp [Except.map] at h
      | ok ch =>
        rw [hch] at h
        simp only [Except.map, Except.ok.injEq, Prod.mk.injEq] at h
        obtain ⟨hl, hs⟩ := h
        rw [← hl, ← hs]
        refine ⟨?_, rfl, ?_, rfl, rfl⟩
        · intro l2 hl2
          simp only [Option.some.injEq] at hl2
          rw [← hl2]
          exact hch
        · unfold Stack.getMiddlewareList
          rfl

theorem c3_cache_discipline_wit :
    ((Stack.add {} (5 : Nat) { name := some "w" }).1).cachedMiddlewareList = none ∧
    exTwoNamed.getMiddlewareList false = .ok ([.abs exXe, .abs exYe], exTwoNamedCached) ∧
    CacheOK exTwoNamedCached := by
  have h1 := (c3_cache_discipline ({} : Stack Nat)).1 5 { name := some "w" }
    (Stack.add {} 5 { name := some "w" }).1 (Prod.ext_iff.mpr ⟨rfl, by decide⟩)
  have h2 := (c3_cache_discipline exTwoNamed).2.2.2.2.2.2.2.2.2.1
    [.abs exXe, .abs exYe] exTwoNamedCached
    (fun l hl => by
      rw [show exTwoNamed.cachedMiddlewareList = none from rfl] at hl
      cases hl) rfl
  exact ⟨h1, h2.2.2.1, h2.1⟩

theorem AbsEntry.absToOptions_toEntry (e : AbsEntry M) :
    e.toOptions.toEntry e.middleware = e := rfl

theorem RelEntry.relToOptions_toEntry (e : RelEntry M) :
    e.toOptions.toEntry e.middleware = e := rfl

/-- `add` reads only the absolute entries and the name set, so two states
agreeing there behave identically (the cache and the flag just pass
through untouched). -/
theorem add_state_congr (s t : Stack M) (mw : M) (o : AddOptions)
    (h1 : s.absoluteEntries = t.absoluteEntries)
    (h3 : s.entriesNameSet = t.entriesNameSet) :
    (s.add mw o).2 = (t.add mw o).2 ∧
    (s.add mw o).1.absoluteEntries = (t.add mw o).1.absoluteEntries ∧
    (s.add mw o).1.relativeEntries = s.relativeEntries ∧
    (t.add mw o).1.relativeEntries = t.relativeEntries ∧
    (s.add mw o).1.entriesNameSet = (t.add mw o).1.entriesNameSet ∧
    (s.add mw o).1.identifyOnResolve = s.identifyOnResolve ∧
    (t.add mw o).1.identifyOnResolve = t.identifyOnResolve := by
  by_cases h0 : getAllAliases o.name o.aliases = []
  · rw [Stack.add_anon s mw o h0, Stack.add_anon t mw o h0]
    exact ⟨rfl, by rw [h1], rfl, rfl, h3, rfl, rfl⟩
  · by_cases hany : (getAllAliases o.name o.aliases).any s.entriesNameSet.hasName = true
    · have hany' : (getAllAliases o.name o.aliases).any t.entriesNameSet.hasName = true := by
        rw [← h3]; exact hany
      by_cases hov : o.override = true
      · rw [Stack.add_override s mw o h0 hany hov, Stack.add_override t mw o h0 hany' hov,
          h1, h3]
        rcases hsc : overrideScanAbs (o.toEntry mw) (getAllAliases o.name o.aliases)
            t.absoluteEntries with ⟨abs2, eOpt⟩
        cases eOpt with
        | some err => exact ⟨rfl, rfl, rfl, rfl, rfl, rfl, rfl⟩
        | none => exact ⟨rfl, rfl, rfl, rfl, rfl, rfl, rfl⟩
      · have hovf : o.override = false := by revert hov; cases o.override <;> simp
        rw [Stack.add_dup s mw o h0 hany hovf, Stack.add_dup t mw o h0 hany' hovf]
        exact ⟨rfl, h1, rfl, rfl, h3, rfl, rfl⟩
    · have hany' : ¬ (getAllAliases o.name o.aliases).any t.entriesNameSet.hasName = true := by
        rw [← h3]; exact hany
      rw [Stack.add_fresh s mw o h0 hany, Stack.add_fresh t mw o h0 hany']
      exact ⟨rfl, by rw [h1], rfl, rfl, by rw [h3], rfl, rfl⟩

/-- `addRelativeTo` reads only the relative entries and the name set. -/
theorem addRelativeTo_state_congr (s t : Stack M) (mw : M) (o : RelOptions)
    (h2 : s.relativeEntries = t.relativeEntries)
    (h3 : s.entriesNameSet = t.entriesNameSet) :
    (s.addRelativeTo mw o).2 = (t.addRelativeTo mw o).2 ∧
    (s.addRelativeTo mw o).1.relativeEntries = (t.addRelativeTo mw o).1.relativeEntries ∧
    (s.addRelativeTo mw o).1.absoluteEntries = s.absoluteEntries ∧
    (t.addRelativeTo mw o).1.absoluteEntries = t.absoluteEntries ∧
    (s.addRelativeTo mw o).1.entriesNameSet = (t.addRelativeTo mw o).1.entriesNameSet ∧
    (s.addRelativeTo mw o).1.identifyOnResolve = s.identifyOnResolve ∧
    (t.addRelativeTo mw o).1.identifyOnResolve = t.identifyOnResolve := by
  by_cases h0 : getAllAliases o.name o.aliases = []
  · rw [Stack.addRelativeTo_anon s mw o h0, Stack.addRelativeTo_anon t mw o h0]
    exact ⟨rfl, by rw [h2], rfl, rfl, h3, rfl, rfl⟩
  · by_cases hany : (getAllAliases o.name o.aliases).any s.entriesNameSet.hasName = true
    · have hany' : (getAllAliases o.name o.aliases).any t.entriesNameSet.hasName = true := by
        rw [← h3]; exact hany
      by_cases hov : o.override = true
      · rw [Stack.addRelativeTo_override s mw o h0 hany hov,
          Stack.addRelativeTo_override t mw o h0 hany' hov, h2, h3]
        rcases hsc : overrideScanRel (o.toEntry mw) (getAllAliases o.name o.aliases)
            t.relativeEntries with ⟨rel2, eOpt⟩
        cases eOpt with
        | some err => exact ⟨rfl, rfl, rfl, rfl, rfl, rfl, rfl⟩
        | none => exact ⟨rfl, rfl, rfl, rfl, rfl, rfl, rfl⟩
      · have hovf : o.override = false := by revert hov; cases o.override <;> simp
        rw [Stack.addRelativeTo_dup s mw o h0 hany hovf,
          Stack.addRelativeTo_dup t mw o h0 hany' hovf]
        exact ⟨rfl, h2, rfl, rfl, h3, rfl, rfl⟩
    · have hany' : ¬ (getAllAliases o.name o.aliases).any t.entriesNameSet.hasName = true := by
        rw [← h3]; exact hany
      rw [Stack.addRelativeTo_fresh s mw o h0 hany, Stack.addRelativeTo_fresh t mw o h0 hany']
      exact ⟨rfl, by rw [h2], rfl, rfl, by rw [h3], rfl, rfl⟩

/-- The `_addBulk` absolute loop agrees with the sequential `add` loop on
everything but the cache field. -/
theorem bulkAbs_eq_seq (es : List (AbsEntry M)) :
    ∀ (s t : Stack M),
      s.absoluteEntries = t.absoluteEntries →
      s.relativeEntries = t.relativeEntries →
      s.entriesNameSet = t.entriesNameSet →
      s.identifyOnResolve = t.identifyOnResolve →
      (bulkAbs s es).2 = (seqAddAll t es).2 ∧
      (bulkAbs s es).1.absoluteEntries = (seqAddAll t es).1.absoluteEntries ∧
      (bulkAbs s es).1.relativeEntries = (seqAddAll t es).1.relativeEntries ∧
      (bulkAbs s es).1.entriesNameSet = (seqAddAll t es).1.entriesNameSet ∧
      (bulkAbs s es).1.identifyOnResolve = (seqAddAll t es).1.identifyOnResolve := by
  induction es with
  | nil => intro s t h1 h2 h3 h4; exact ⟨rfl, h1, h2, h3, h4⟩
  | cons e rest ih =>
    intro s t h1 h2 h3 h4
    unfold bulkAbs seqAddAll
    have hcg := add_state_congr s t e.middleware e.toOptions h1 h3
    rcases hsa : s.add e.middleware e.toOptions with ⟨s1, e1⟩
    rcases hta : t.add e.middleware e.toOptions with ⟨t1, f1⟩
    rw [hsa, hta] at hcg
    obtain ⟨herr, hg1, hg2, hg3, hg4, hg5, hg6⟩ := hcg
    replace herr : e1 = f1 := herr
    replace hg1 : s1.absoluteEntries = t1.absoluteEntries := hg1
    replace hg2 : s1.relativeEntries = s.relativeEntries := hg2
    replace hg3 : t1.relativeEntries = t.relativeEntries := hg3
    replace hg4 : s1.entriesNameSet = t1.entriesNameSet := hg4
    replace hg5 : s1.identifyOnResolve = s.identifyOnResolve := hg5
    replace hg6 : t1.identifyOnResolve = t.identifyOnResolve := hg6
    by_cases hcol : getAllAliases e.name e.aliases ≠ [] ∧
        (getAllAliases e.name e.aliases).any s.entriesNameSet.hasName = true
    · rw [if_pos hcol, ← herr]
      cases e1 with
      | some err =>
        exact ⟨rfl, hg1, hg2.trans (h2.trans hg3.symm), hg4,
          hg5.trans (h4.trans hg6.symm)⟩
      | none =>
        exact ih s1 t1 hg1 (hg2.trans (h2.trans hg3.symm)) hg4
          (hg5.trans (h4.trans hg6.symm))
    · rw [if_neg hcol]
      have hfast : t.add e.middleware e.toOptions = ({ t with
          absoluteEntries := t.absoluteEntries ++ [e]
          entriesNameSet := t.entriesNameSet.addAll (getAllAliases e.name e.aliases)
          cachedMiddlewareList := none }, none) := by
        by_cases h0 : getAllAliases e.name e.aliases = []
        · have heq := Stack.add_anon t e.middleware e.toOptions
            (by rw [show e.toOptions.name = e.name from rfl,
              show e.toOptions.aliases = e.aliases from rfl]; exact h0)
          rw [heq, AbsEntry.absToOptions_toEntry, h0]
          rfl
        · have hnoc : ¬ (getAllAliases e.name e.aliases).any t.entriesNameSet.hasName
              = true := by
            rw [← h3]
            intro hx
            exact hcol ⟨h0, hx⟩
          have heq := Stack.add_fresh t e.middleware e.toOptions
            (by rw [show e.toOptions.name = e.name from rfl,
              show e.toOptions.aliases = e.aliases from rfl]; exact h0)
            (by rw [show e.toOptions.name = e.name from rfl,
              show e.toOptions.aliases = e.aliases from rfl]; exact hnoc)
          rw [heq, AbsEntry.absToOptions_toEntry]
          rfl
      rw [hta] at hfast
      injection hfast with hft hfe
      rw [hfe]
      exact ih _ t1 (by rw [hft]; simp [h1]) (by rw [hft]; simp [h2])
        (by rw [hft]; simp [h3]) (by rw [hft]; simp [h4])

/-- The `_addBulk` relative loop agrees with the sequential loop. -/
theorem bulkRel_eq_seq (es : List (RelEntry M)) :
    ∀ (s t : Stack M),
      s.absoluteEntries = t.absoluteEntries →
      s.relativeEntries = t.relativeEntries →
      s.entriesNameSet = t.entriesNameSet →
      s.identifyOnResolve = t.identifyOnResolve →
      (bulkRel s es).2 = (seqAddRelAll t es).2 ∧
      (bulkRel s es).1.absoluteEntries = (seqAddRelAll t es).1.absoluteEntries ∧
      (bulkRel s es).1.relativeEntries = (seqAddRelAll t es).1.relativeEntries ∧
      (bulkRel s es).1.entriesNameSet = (seqAddRelAll t es).1.entriesNameSet ∧
      (bulkRel s es).1.identifyOnResolve = (seqAddRelAll t es).1.identifyOnResolve := by
  induction es with
  | nil => intro s t h1 h2 h3 h4; exact ⟨rfl, h1, h2, h3, h4⟩
  | cons e rest ih =>
    intro s t h1 h2 h3 h4
    unfold bulkRel seqAddRelAll
    have hcg := addRelativeTo_state_congr s t e.middleware e.toOptions h2 h3
    rcases hsa : s.addRelativeTo e.middleware e.toOptions with ⟨s1, e1⟩
    rcases hta : t.addRelativeTo e.middleware e.toOptions with ⟨t1, f1⟩
    rw [hsa, hta] at hcg
    obtain ⟨herr, hg1, hg2, hg3, hg4, hg5, hg6⟩ := hcg
    replace herr : e1 = f1 := herr
    replace hg1 : s1.relativeEntries = t1.relativeEntries := hg1
    replace hg2 : s1.absoluteEntries = s.absoluteEntries := hg2
    replace hg3 : t1.absoluteEntries = t.absoluteEntries := hg3
    replace hg4 : s1.entriesNameSet = t1.entriesNameSet := hg4
    replace hg5 : s1.identifyOnResolve = s.identifyOnResolve := hg5
    replace hg6 : t1.identifyOnResolve = t.identifyOnResolve := hg6
    by_cases hcol : getAllAliases e.name e.aliases ≠ [] ∧
        (getAllAliases e.name e.aliases).any s.entriesNameSet.hasName = true
    · rw [if_pos hcol, ← herr]
      cases e1 with
      | some err =>
        exact ⟨rfl, hg2.trans (h1.trans hg3.symm), hg1, hg4,
          hg5.trans (h4.trans hg6.symm)⟩
      | none =>
        exact ih s1 t1 (hg2.trans (h1.trans hg3.symm)) hg1 hg4
          (hg5.trans (h4.trans hg6.symm))
    · rw [if_neg hcol]
      have hfast : t.addRelativeTo e.middleware e.toOptions = ({ t with
          relativeEntries := t.relativeEntries ++ [e]
          entriesNameSet := t.entriesNameSet.addAll (getAllAliases e.name e.aliases)
          cachedMiddlewareList := none }, none) := by
        by_cases h0 : getAllAliases e.name e.aliases = []
        · have heq := Stack.addRelativeTo_anon t e.middleware e.toOptions
            (by rw [show e.toOptions.name = e.name from rfl,
              show e.toOptions.aliases = e.aliases from rfl]; exact h0)
          rw [heq, RelEntry.relToOptions_toEntry, h0]
          rfl
        · have hnoc : ¬ (getAllAliases e.name e.aliases).any t.entriesNameSet.hasName
              = true := by
            rw [← h3]
            intro hx
            exact hcol ⟨h0, hx⟩
          have heq := Stack.addRelativeTo_fresh t e.middleware e.toOptions
            (by rw [show e.toOptions.name = e.name from rfl,
              show e.toOptions.aliases = e.aliases from rfl]; exact h0)
            (by rw [show e.toOptions.name = e.name from rfl,
              show e.toOptions.aliases = e.aliases from rfl]; exact hnoc)
          rw [heq, RelEntry.relToOptions_toEntry]
          rfl
      rw [hta] at hfast
      injection hfast with hft hfe
      rw [hfe]
      exact ih _ t1 (by rw [hft]; simp [h1]) (by rw [hft]; simp [h2])
        (by rw [hft]; simp [h3]) (by rw [hft]; simp [h4])

/-- C8 is false as stated: transferring an anonymous entry plus an entry
colliding with the cached target registry, `_addBulk` and the sequential
single-entry loop throw the same DuplicateName error and leave the same
entry collections — but `_addBulk` skipped the per-entry cache
invalidation, so the target still serves its stale two-entry cached chain
on the next execution-mode resolution, while after the sequential loop the
next resolution recomputes the three-entry chain: the two are
observationally different. -/
theorem c8_cex :
    exBulkRes.2 = some (.duplicateName "x") ∧
    exSeqRes.2 = some (.duplicateName "x") ∧
    exBulkRes.1.absoluteEntries = exSeqRes.1.absoluteEntries ∧
    exBulkRes.1.cachedMiddlewareList = some [.abs exXe, .abs exYe] ∧
    exSeqRes.1.cachedMiddlewareList = none ∧
    (exBulkRes.1.getMiddlewareList false).toOption.map Prod.fst =
      some [.abs exXe, .abs exYe] ∧
    (exSeqRes.1.getMiddlewareList false).toOption.map Prod.fst =
      some [.abs exXe, .abs { middleware := 7 }, .abs exYe] :=
  ⟨rfl, rfl, rfl, rfl, rfl, rfl, rfl⟩

/-- C8 (amended): `_addBulk` agrees with looping the single-entry
add/addRelativeTo calls in order on the resulting entry lists, name set,
flag, errors, and hence on what a fresh resolution produces, and on
success it leaves the cache invalidated; but when an entry's fallback call
throws, `_addBulk` aborts without the cache invalidations the sequential
loop would have performed, so a stale cached chain can survive (see the
counterexample) — the equivalence is observational only up to the cache. -/
theorem addBulk_eq_absErr (s : Stack M) (aEs : List (AbsEntry M))
    (rEs : List (RelEntry M)) (s1 : Stack M) (err : StackError)
    (h : bulkAbs s aEs = (s1, some err)) : s.addBulk aEs rEs = (s1, some err) := by
  unfold Stack.addBulk
  rw [h]

theorem addBulk_eq_relStage (s : Stack M) (aEs : List (AbsEntry M))
    (rEs : List (RelEntry M)) (s1 : Stack M) (h : bulkAbs s aEs = (s1, none)) :
    s.addBulk aEs rEs =
      (match bulkRel s1 rEs with
       | (s2, some err) => (s2, some err)
       | (s2, none) => ({ s2 with cachedMiddlewareList := none }, none)) := by
  unfold Stack.addBulk
  rw [h]

theorem seqTransfer_eq_absErr (s : Stack M) (aEs : List (AbsEntry M))
    (rEs : List (RelEntry M)) (t1 : Stack M) (err : StackError)
    (h : seqAddAll s aEs = (t1, some err)) : seqTransfer s aEs rEs = (t1, some err) := by
  unfold seqTransfer
  rw [h]

theorem seqTransfer_eq_relStage (s : Stack M) (aEs : List (AbsEntry M))
    (rEs : List (RelEntry M)) (t1 : Stack M) (h : seqAddAll s aEs = (t1, none)) :
    seqTransfer s aEs rEs = seqAddRelAll t1 rEs := by
  unfold seqTransfer
  rw [h]

theorem c8_bulk_equiv (s : Stack M) (aEs : List (AbsEntry M)) (rEs : List (RelEntry M)) :
    (s.addBulk aEs rEs).2 = (seqTransfer s aEs rEs).2 ∧
    (s.addBulk aEs rEs).1.absoluteEntries = (seqTransfer s aEs rEs).1.absoluteEntries ∧
    (s.addBulk aEs rEs).1.relativeEntries = (seqTransfer s aEs rEs).1.relativeEntries ∧
    (s.addBulk aEs rEs).1.entriesNameSet = (seqTransfer s aEs rEs).1.entriesNameSet ∧
    (s.addBulk aEs rEs).1.identifyOnResolve =
      (seqTransfer s aEs rEs).1.identifyOnResolve ∧
    chainExc (s.addBulk aEs rEs).1.absoluteEntries
        (s.addBulk aEs rEs).1.relativeEntries =
      chainExc (seqTransfer s aEs rEs).1.absoluteEntries
        (seqTransfer s aEs rEs).1.relativeEntries ∧
    ((s.addBulk aEs rEs).2 = none →
      (s.addBulk aEs rEs).1.cachedMiddlewareList = none) := by
  have hA := bulkAbs_eq_seq aEs s s rfl rfl rfl rfl
  rcases hb : bulkAbs s aEs with ⟨s1, e1⟩
  rcases hq : seqAddAll s aEs with ⟨t1, f1⟩
  rw [hb, hq] at hA
  obtain ⟨he, ha1, ha2, ha3, ha4⟩ := hA
  replace he : e1 = f1 := he
  replace ha1 : s1.absoluteEntries = t1.absoluteEntries := ha1
  replace ha2 : s1.relativeEntries = t1.relativeEntries := ha2
  replace ha3 : s1.entriesNameSet = t1.entriesNameSet := ha3
  replace ha4 : s1.identifyOnResolve = t1.identifyOnResolve := ha4
  cases e1 with
  | some err =>
    rw [addBulk_eq_absErr s aEs rEs s1 err hb,
      seqTransfer_eq_absErr s aEs rEs t1 err (by rw [hq, ← he])]
    refine ⟨rfl, ha1, ha2, ha3, ha4, ?_, fun hcon => by simp at hcon⟩
    have : chainExc s1.absoluteEntries s1.relativeEntries =
        chainExc t1.absoluteEntries t1.relativeEntries := by rw [ha1, ha2]
    exact this
  | none =>
    rw [addBulk_eq_relStage s aEs rEs s1 hb,
      seqTransfer_eq_relStage s aEs rEs t1 (by rw [hq, ← he])]
    have hR := bulkRel_eq_seq rEs s1 t1 ha1 ha2 ha3 ha4
    rcases hbr : bulkRel s1 rEs with ⟨s2, e2⟩
    rcases hqr : seqAddRelAll t1 rEs with ⟨t2, f2⟩
    rw [hbr, hqr] at hR
    obtain ⟨he2, hc1, hc2, hc3, hc4⟩ := hR
    replace he2 : e2 = f2 := he2
    replace hc1 : s2.absoluteEntries = t2.absoluteEntries := hc1
    replace hc2 : s2.relativeEntries = t2.relativeEntries := hc2
    replace hc3 : s2.entriesNameSet = t2.entriesNameSet := hc3
    replace hc4 : s2.identifyOnResolve = t2.identifyOnResolve := hc4
    rw [← he2]
    cases e2 with
    | some err =>
      refine ⟨rfl, hc1, hc2, hc3, hc4, ?_, fun hcon => by simp at hcon⟩
      have : chainExc s2.absoluteEntries s2.relativeEntries =
          chainExc t2.absoluteEntries t2.relativeEntries := by rw [hc1, hc2]
      exact this
    | none =>
      refine ⟨rfl, hc1, hc2, hc3, hc4, ?_, fun _ => rfl⟩
      have : chainExc s2.absoluteEntries s2.relativeEntries =
          chainExc t2.absoluteEntries t2.relativeEntries := by rw [hc1, hc2]
      exact this

theorem c8_bulk_equiv_wit :
    ((Stack.addBulk ({} : Stack Nat) [exXe] []).1).cachedMiddlewareList = none ∧
    (Stack.addBulk ({} : Stack Nat) [exXe] []).2 =
      (seqTransfer ({} : Stack Nat) [exXe] []).2 :=
  ⟨(c8_bulk_equiv ({} : Stack Nat) [exXe] []).2.2.2.2.2.2 rfl,
   (c8_bulk_equiv ({} : Stack Nat) [exXe] []).1⟩

/-- C2 (as stated) is false on the code: on a registry holding a named entry
n (middleware 1) followed by an anonymous entry (middleware 2), both at the
default step and priority, overriding n with middleware 3 succeeds — but the
resolved chain becomes [2, 3] instead of the position-preserving [3, 2]: the
overridden entry is spliced out and the replacement appended at the end, so
among entries with equal step and priority the stable sort keeps it last and
the chain changes beyond the replaced middleware. -/
theorem c2_cex :
    exPosOverride.2 = none ∧
    (chainExc exPosBase.absoluteEntries exPosBase.relativeEntries).map
        (fun ch => ch.map MwEntry.middleware) = .ok [1, 2] ∧
    (chainExc exPosOverride.1.absoluteEntries exPosOverride.1.relativeEntries).map
        (fun ch => ch.map MwEntry.middleware) = .ok [2, 3] ∧
    ¬ (chainExc exPosOverride.1.absoluteEntries exPosOverride.1.relativeEntries).map
        (fun ch => ch.map MwEntry.middleware) = .ok [3, 2] := by
  have h3 : (chainExc exPosOverride.1.absoluteEntries
      exPosOverride.1.relativeEntries).map (fun ch => ch.map MwEntry.middleware) =
      .ok [2, 3] := rfl
  refine ⟨rfl, rfl, h3, fun hcon => ?_⟩
  have := h3.symm.trans hcon
  simp at this

/-- C2 (amended): a colliding `add` (resp. `addRelativeTo`) with
`override: true` either fails with an OverrideMismatch error, or succeeds
removing only same-kind entries that match the new entry's step and priority
(resp. anchor name and relation) exactly — the survivors form a sublist of
the prior same-kind list, every multiset-removed entry matched, the new
entry is appended at the END of the same-kind list (position in the chain
is NOT preserved in general), the other-kind list is untouched, the aliases
are reserved and the cache invalidated.  The collision test itself ranges
over the combined name set of both kinds, but only same-kind entries are
match-checked and removed. -/
theorem c2_override_semantics [DecidableEq M] (s : Stack M) (mw : M)
    (oA : AddOptions) (oR : RelOptions) :
    (oA.override = true →
      (getAllAliases oA.name oA.aliases).any s.entriesNameSet.hasName = true →
      (∀ s' err, s.add mw oA = (s', some err) → err.isOverrideMismatch = true) ∧
      (∀ s', s.add mw oA = (s', none) →
        ∃ l, s'.absoluteEntries = l ++ [oA.toEntry mw] ∧
          l.Sublist s.absoluteEntries ∧
          (∀ x, l.count x < s.absoluteEntries.count x →
            x.step = (oA.toEntry mw).step ∧ (oA.toEntry mw).priority = x.priority) ∧
          s'.relativeEntries = s.relativeEntries ∧
          s'.entriesNameSet =
            s.entriesNameSet.addAll (getAllAliases oA.name oA.aliases) ∧
          s'.cachedMiddlewareList = none)) ∧
    (oR.override = true →
      (getAllAliases oR.name oR.aliases).any s.entriesNameSet.hasName = true →
      (∀ s' err, s.addRelativeTo mw oR = (s', some err) →
        err.isOverrideMismatch = true) ∧
      (∀ s', s.addRelativeTo mw oR = (s', none) →
        ∃ l, s'.relativeEntries = l ++ [oR.toEntry mw] ∧
          l.Sublist s.relativeEntries ∧
          (∀ x, l.count x < s.relativeEntries.count x →
            x.toMiddleware = (oR.toEntry mw).toMiddleware ∧
            x.relation = (oR.toEntry mw).relation) ∧
          s'.absoluteEntries = s.absoluteEntries ∧
          s'.entriesNameSet =
            s.entriesNameSet.addAll (getAllAliases oR.name oR.aliases) ∧
          s'.cachedMiddlewareList = none)) := by
  constructor
  · intro hov hcol
    have h0 : ¬ getAllAliases oA.name oA.aliases = [] := by
      intro hnil; rw [hnil] at hcol; simp at hcol
    have heq := Stack.add_override s mw oA h0 hcol hov
    constructor
    · intro s' err h
      rw [heq] at h
      rcases hsc : overrideScanAbs (oA.toEntry mw) (getAllAliases oA.name oA.aliases)
          s.absoluteEntries with ⟨abs, e⟩
      rw [hsc] at h
      cases e with
      | none => simp at h
      | some e0 =>
        have hmm := overrideScanAbs_err_mismatch (oA.toEntry mw)
          (getAllAliases oA.name oA.aliases) s.absoluteEntries e0 (by rw [hsc])
        injection h with h1 h2
        injection h2 with h2
        rwa [← h2]
    · intro s' h
      rw [heq] at h
      rcases hsc : overrideScanAbs (oA.toEntry mw) (getAllAliases oA.name oA.aliases)
          s.absoluteEntries with ⟨abs, e⟩
      rw [hsc] at h
      cases e with
      | some e0 => simp at h
      | none =>
        injection h with h1 h2
        have hsub := overrideScanAbs_sublist (oA.toEntry mw)
          (getAllAliases oA.name oA.aliases) s.absoluteEntries
        rw [hsc] at hsub
        refine ⟨abs, by rw [← h1], hsub, ?_, by rw [← h1], by rw [← h1], by rw [← h1]⟩
        intro x hx
        exact overrideScanAbs_removed_count (oA.toEntry mw)
          (getAllAliases oA.name oA.aliases) s.absoluteEntries x (by rw [hsc]; exact hx)
  · intro hov hcol
    have h0 : ¬ getAllAliases oR.name oR.aliases = [] := by
      intro hnil; rw [hnil] at hcol; simp at hcol
    have heq := Stack.addRelativeTo_override s mw oR h0 hcol hov
    constructor
    · intro s' err h
      rw [heq] at h
      rcases hsc : overrideScanRel (oR.toEntry mw) (getAllAliases oR.name oR.aliases)
          s.relativeEntries with ⟨rel, e⟩
      rw [hsc] at h
      cases e with
      | none => simp at h
      | some e0 =>
        have hmm := overrideScanRel_err_mismatch (oR.toEntry mw)
          (getAllAliases oR.name oR.aliases) s.relativeEntries e0 (by rw [hsc])
        injection h with h1 h2
        injection h2 with h2
        rwa [← h2]
    · intro s' h
      rw [heq] at h
      rcases hsc : overrideScanRel (oR.toEntry mw) (getAllAliases oR.name oR.aliases)
          s.relativeEntries with ⟨rel, e⟩
      rw [hsc] at h
      cases e with
      | some e0 => simp at h
      | none =>
        injection h with h1 h2
        have hsub := overrideScanRel_sublist (oR.toEntry mw)
          (getAllAliases oR.name oR.aliases) s.relativeEntries
        rw [hsc] at hsub
        refine ⟨rel, by rw [← h1], hsub, ?_, by rw [← h1], by rw [← h1], by rw [← h1]⟩
        intro x hx
        exact overrideScanRel_removed_count (oR.toEntry mw)
          (getAllAliases oR.name oR.aliases) s.relativeEntries x (by rw [hsc]; exact hx)

theorem c2_override_semantics_wit :
    exPosOverride.1.relativeEntries = exPosBase.relativeEntries ∧
    exPosOverride.1.cachedMiddlewareList = none ∧
    ∃ l, exPosOverride.1.absoluteEntries =
        l ++ [AddOptions.toEntry { name := some "n", override := true } 3] ∧
      l.Sublist exPosBase.absoluteEntries ∧
      (∀ x, l.count x < exPosBase.absoluteEntries.count x →
        x.step = (AddOptions.toEntry { name := some "n", override := true } 3).step ∧
        (AddOptions.toEntry { name := some "n", override := true } 3).priority =
          x.priority) := by
  obtain ⟨l, h1, h2, h3, h4, h5, h6⟩ := ((c2_override_semantics exPosBase 3
      { name := some "n", override := true }
      { name := some "q", toMiddleware := "n", relation := .before,
        override := true }).1 rfl (by decide)).2 exPosOverride.1 rfl
  exact ⟨h4, h6, l, h1, h2, h3⟩

end MwStack
